import Mathlib

/-!
Verification of the iommufd in-kernel access interface
(drivers/iommu/iommufd/device.c and hw_pagetable.c) against its
natural-language specification.

The functions of device.c and hw_pagetable.c are translated directly.
Helpers that live in io_pagetable.c / io_pagetable.h (the contiguous-area
iterator, the per-area access bookkeeping, the byte-copy helper, the
domain fill/unfill walk and the unmap path) are not part of the given
sources; they are modelled from the specification and are marked with a
doc comment starting with: Modelled from the spec.
-/

namespace Iommufd

/-- Kernel page size constant PAGE_SIZE (4 KiB on the platforms at hand). -/
def PAGE_SIZE : Nat := 4096

/-- Largest value of the C type unsigned long on the 64-bit kernel. -/
def ULONG_MAX : Nat := 2 ^ 64 - 1

/-- IOMMU_READ protection bit, include/linux/iommu.h. -/
def IOMMU_READ : Nat := 1

/-- IOMMU_WRITE protection bit, include/linux/iommu.h. -/
def IOMMU_WRITE : Nat := 2

/-- IOMMUFD_ACCESS_RW_WRITE flag, include/linux/iommufd.h. -/
def IOMMUFD_ACCESS_RW_WRITE : Nat := 1

/-- Kernel error codes returned by the translated functions (negated in C). -/
inductive Err where
  | EINVAL
  | EOVERFLOW
  | EPERM
  | ENOENT
  | ENOMEM
  | EBUSY
deriving DecidableEq, Repr

/-- One mapped Area of the I/O page table: an inclusive IOVA range backed by a
Pages Store at a byte offset, with permission bits and the teardown flag
prevent_access. -/
structure IoptArea where
  id : Nat
  pages : Nat
  iova_start : Nat
  iova_last : Nat
  start_byte0 : Nat
  iommu_prot : Nat
  prevent_access : Bool
deriving DecidableEq, Repr

/-- iopt_area_iova: first IOVA of the area. -/
def iopt_area_iova (a : IoptArea) : Nat := a.iova_start

/-- iopt_area_last_iova: last (inclusive) IOVA of the area. -/
def iopt_area_last_iova (a : IoptArea) : Nat := a.iova_last

/-- Modelled from the spec: an Area references its Pages Store at an internal
byte offset, so the byte backing an IOVA is that offset plus the distance from
the start of the Area (io_pagetable.h iopt_area_start_byte). -/
def iopt_area_start_byte (a : IoptArea) (iova : Nat) : Nat :=
  iova - a.iova_start + a.start_byte0

/-- Modelled from the spec: the index of the Pages Store page backing an IOVA
(io_pagetable.h iopt_area_iova_to_index). -/
def iopt_area_iova_to_index (a : IoptArea) (iova : Nat) : Nat :=
  iopt_area_start_byte a iova / PAGE_SIZE

/-- check_area_prot from device.c: a write access needs IOMMU_WRITE on the
area, any other access needs IOMMU_READ. -/
def check_area_prot (area : IoptArea) (flags : Nat) : Bool :=
  if flags &&& IOMMUFD_ACCESS_RW_WRITE ≠ 0 then
    decide (area.iommu_prot &&& IOMMU_WRITE ≠ 0)
  else
    decide (area.iommu_prot &&& IOMMU_READ ≠ 0)

/-- One step of the contiguous-area iterator: the area, the iterator cursor
cur_iova when the area is visited, and the last IOVA of the range that this
area covers (min of the request's last IOVA and the area's last IOVA). -/
structure Seg where
  area : IoptArea
  cur : Nat
  lastIova : Nat
deriving DecidableEq, Repr

/-- Modelled from the spec: the ordered Area index supports the range query
for the area containing a given IOVA (io_pagetable.h iopt_area_iter_first). -/
def findArea (areas : List IoptArea) (p : Nat) : Option IoptArea :=
  areas.find? (fun a => decide (a.iova_start ≤ p ∧ p ≤ a.iova_last))

/-- Modelled from the spec: the contiguous-area iterator
(io_pagetable.c iopt_area_contig_init / iopt_area_contig_next).  Starting at
cur it visits the area containing cur; each further area must begin exactly
at the previous area's last IOVA plus one, else the walk stops.  Returns the
visited segments, whether the walk reached lastIova (iopt_area_contig_done),
and the cursor position where the walk stopped.  Structural fuel bounds the
recursion; contigSegs supplies enough fuel for the whole range. -/
def contigWalkF (areas : List IoptArea) :
    Nat → Nat → Nat → Bool → List Seg × Bool × Nat
  | 0, cur, _, _ => ([], false, cur)
  | fuel + 1, cur, lastIova, first =>
    match findArea areas cur with
    | none => ([], false, cur)
    | some a =>
      if !first && decide (a.iova_start ≠ cur) then ([], false, cur)
      else if lastIova ≤ a.iova_last then ([⟨a, cur, lastIova⟩], true, cur)
      else
        let r := contigWalkF areas fuel (a.iova_last + 1) lastIova false
        (⟨a, cur, a.iova_last⟩ :: r.1, r.2.1, r.2.2)

/-- The contiguous-area walk over the inclusive range [iova, lastIova]
(iopt_for_each_contig_area). -/
def contigSegs (areas : List IoptArea) (iova lastIova : Nat) :
    List Seg × Bool × Nat :=
  contigWalkF areas (lastIova + 1 - iova) iova lastIova true

/-- iopt_area_contig_is_aligned from device.c: the byte under the cursor must
be page aligned, and unless this area already completes the walk its last
byte must end a page. -/
def iopt_area_contig_is_aligned (s : Seg) (lastIova : Nat) : Bool :=
  decide (iopt_area_start_byte s.area s.cur % PAGE_SIZE = 0) &&
    (decide (lastIova ≤ iopt_area_last_iova s.area) ||
      decide (iopt_area_start_byte s.area (iopt_area_last_iova s.area) %
          PAGE_SIZE = PAGE_SIZE - 1))

/-- One recorded in-kernel access over an area: the page-index range pinned
by iopt_area_add_access. -/
structure AccessEntry where
  areaId : Nat
  startIndex : Nat
  lastIndex : Nat
deriving DecidableEq, Repr

/-- The per-area access state of the whole I/O page table: the multiset of
access entries currently held (each entry contributes to the pin counts of
its page range). -/
abbrev AccState := Multiset AccessEntry

/-- The access entry recorded for one iterator segment: the page-index range
from the cursor to the segment's last IOVA. -/
def segEntry (s : Seg) : AccessEntry :=
  ⟨s.area.id, iopt_area_iova_to_index s.area s.cur,
    iopt_area_iova_to_index s.area s.lastIova⟩

/-- Modelled from the spec: iopt_area_add_access (io_pagetable.c) pins the
page range and increments the logical holder count; recorded here as adding
the entry to the access multiset. -/
def iopt_area_add_access (st : AccState) (s : Seg) : AccState :=
  segEntry s ::ₘ st

/-- Modelled from the spec: iopt_area_remove_access (io_pagetable.c) drops
one matching access entry, decrementing the pin counts of its page range. -/
def iopt_area_remove_access (st : AccState) (s : Seg) : AccState :=
  st.erase (segEntry s)

/-- The pages returned for one segment: pairs of (Pages Store, page index)
for the covered index range. -/
def segPages (s : Seg) : List (Nat × Nat) :=
  (List.range
      (iopt_area_iova_to_index s.area s.lastIova -
        iopt_area_iova_to_index s.area s.cur + 1)).map
    (fun k => (s.area.pages, iopt_area_iova_to_index s.area s.cur + k))

/-- The loop body of iommufd_access_pin_pages over the iterator segments:
per segment, prevent_access or misalignment gives EINVAL, a permission
mismatch gives EPERM, otherwise the access is added and the page list grows.
On error the cursor position of the failing segment is reported for the
unwind. -/
def pinLoop (lastIova flags : Nat) :
    List Seg → AccState → List (Nat × Nat) →
      AccState × List (Nat × Nat) × Option (Err × Nat)
  | [], st, pgs => (st, pgs, none)
  | s :: rest, st, pgs =>
    if s.area.prevent_access || !iopt_area_contig_is_aligned s lastIova then
      (st, pgs, some (.EINVAL, s.cur))
    else if !check_area_prot s.area flags then
      (st, pgs, some (.EPERM, s.cur))
    else
      pinLoop lastIova flags rest (iopt_area_add_access st s) (pgs ++ segPages s)

/-- The removal loop shared by the err_remove unwind of
iommufd_access_pin_pages and by iommufd_access_unpin_pages: remove one
access entry per visited segment. -/
def removeLoop (segs : List Seg) (st : AccState) : AccState :=
  segs.foldl iopt_area_remove_access st

/-- The err_remove unwind of iommufd_access_pin_pages: if any area was
processed (iova < cur_iova), re-walk the already covered range
[iova, cur_iova - 1] and remove the accesses added for it. -/
def pinUnwind (areas : List IoptArea) (st : AccState) (iova cur : Nat) :
    AccState :=
  if iova < cur then removeLoop (contigSegs areas iova (cur - 1)).1 st else st

/-- iommufd_access_pin_pages from device.c: validate the range, walk the
contiguous areas adding accesses, and on any failure unwind the already
added accesses before returning the error. -/
def iommufd_access_pin_pages (areas : List IoptArea) (st : AccState)
    (iova length flags : Nat) : AccState × List (Nat × Nat) × Option Err :=
  if length = 0 then (st, [], some .EINVAL)
  else if ULONG_MAX < iova + (length - 1) then (st, [], some .EOVERFLOW)
  else
    let lastIova := iova + (length - 1)
    let w := contigSegs areas iova lastIova
    match pinLoop lastIova flags w.1 st [] with
    | (st', pgs, none) =>
      if w.2.1 then (st', pgs, none)
      else (pinUnwind areas st' iova w.2.2, [], some .ENOENT)
    | (st', _, some (e, cur)) => (pinUnwind areas st' iova cur, [], some e)

/-- iommufd_access_unpin_pages from device.c: a zero length or an
overflowing range trips WARN_ON and returns with no state change; otherwise
the covered segments' accesses are removed and WARN_ON fires if the range
was not fully covered.  The returned Bool reports whether a WARN_ON fired;
the function has no error return. -/
def iommufd_access_unpin_pages (areas : List IoptArea) (st : AccState)
    (iova length : Nat) : AccState × Bool :=
  if length = 0 || decide (ULONG_MAX < iova + (length - 1)) then (st, true)
  else
    let w := contigSegs areas iova (iova + (length - 1))
    (removeLoop w.1 st, !w.2.1)

/-- Byte contents of the Pages Stores: store id → byte offset → byte. -/
abbrev Mem := Nat → Nat → Nat

/-- The kernel buffer handed to iommufd_access_rw: index → byte. -/
abbrev Buf := Nat → Nat

/-- Modelled from the spec: iopt_pages_rw_access (pages.c) transiently pins
the byte range and copies it between the Pages Store and the kernel buffer,
leaving no persistent pin; a write copies buffer bytes into the store, a
read copies store bytes into the buffer. -/
def iopt_pages_rw_access (mem : Mem) (buf : Buf)
    (pid startByte doff bytes flags : Nat) : Mem × Buf :=
  if flags &&& IOMMUFD_ACCESS_RW_WRITE ≠ 0 then
    (fun p o =>
      if p = pid ∧ startByte ≤ o ∧ o < startByte + bytes then
        buf (doff + (o - startByte))
      else mem p o,
      buf)
  else
    (mem,
      fun i =>
        if doff ≤ i ∧ i < doff + bytes then
          mem pid (startByte + (i - doff))
        else buf i)

/-- The loop body of iommufd_access_rw over the iterator segments: per
segment prevent_access gives EINVAL and a permission mismatch EPERM, before
any byte of that segment is copied; otherwise the bytes are copied and the
buffer offset advances. -/
def rwLoop (flags : Nat) :
    List Seg → Mem → Buf → Nat → Mem × Buf × Option Err
  | [], mem, buf, _ => (mem, buf, none)
  | s :: rest, mem, buf, doff =>
    if s.area.prevent_access then (mem, buf, some .EINVAL)
    else if !check_area_prot s.area flags then (mem, buf, some .EPERM)
    else
      let bytes := s.lastIova - s.cur + 1
      let mb := iopt_pages_rw_access mem buf s.area.pages
        (iopt_area_start_byte s.area s.cur) doff bytes flags
      rwLoop flags rest mb.1 mb.2 (doff + bytes)

/-- iommufd_access_rw from device.c: validate the range, walk the contiguous
areas copying bytes, and report ENOENT when the walk did not cover the whole
range.  Bytes already copied for earlier segments are kept on error; the
access state is never touched. -/
def iommufd_access_rw (areas : List IoptArea) (st : AccState) (mem : Mem)
    (buf : Buf) (iova length flags : Nat) :
    AccState × Mem × Buf × Option Err :=
  if length = 0 then (st, mem, buf, some .EINVAL)
  else if ULONG_MAX < iova + (length - 1) then (st, mem, buf, some .EOVERFLOW)
  else
    let lastIova := iova + (length - 1)
    let w := contigSegs areas iova lastIova
    match rwLoop flags w.1 mem buf 0 with
    | (mem', buf', none) =>
      if w.2.1 then (st, mem', buf', none)
      else (st, mem', buf', some .ENOENT)
    | (mem', buf', some e) => (st, mem', buf', some e)

/-! ## Hardware page table attach (device.c, hw_pagetable.c) -/

namespace Attach

/-- The state touched by iommufd_hw_pagetable_attach and
iommufd_hw_pagetable_alloc: the group's current hwpt and device list, the
I/O page table's reserved regions (keyed by device), the domain entries
programmed for each area, the list of domains attached to the table and
the ioas's hwpt list, plus the area index (only area ids matter here). -/
structure St where
  igroup_hwpt : Option Nat
  device_list : List Nat
  reserved : Multiset (Nat × Nat × Nat)
  domEntries : Multiset (Nat × Nat)
  domains : List Nat
  hwpt_list : List Nat
  areas : List Nat
deriving DecidableEq

/-- Modelled from the spec: add_reserved_region for every reserved region of
the device; the operation either installs all regions or fails with Busy and
installs none (io_pagetable.c iopt_table_enforce_dev_resv_regions, which
removes its own partial work on failure). -/
def iopt_table_enforce_dev_resv_regions (st : St) (dev : Nat)
    (regions : List (Nat × Nat)) (resvOk : Bool) : St × Option Err :=
  if resvOk then
    ({ st with reserved :=
        st.reserved + (regions.map (fun r => (dev, r.1, r.2)) : List _) }, none)
  else (st, some .EBUSY)

/-- Modelled from the spec: remove every reserved region belonging to the
device (io_pagetable.c iopt_remove_reserved_iova). -/
def iopt_remove_reserved_iova (st : St) (dev : Nat) : St :=
  { st with reserved := st.reserved.filter (fun r => r.1 ≠ dev) }

/-- Modelled from the spec: attach-domain walks every existing Area in IOVA
order calling fill_domain, and a failure mid-walk triggers unfill_domain on
the Areas already filled before reporting the error
(io_pagetable.c iopt_table_add_domain).  fillFail injects the index of the
first area whose fill fails, if any. -/
def iopt_table_add_domain (st : St) (dom : Nat) (fillFail : Option Nat) :
    St × Option Err :=
  match fillFail with
  | some k =>
    if k < st.areas.length then
      let filled := (st.areas.take k).map (fun a => (dom, a))
      let st1 := { st with domEntries := st.domEntries + (filled : List _) }
      let st2 :=
        { st1 with
            domEntries := filled.foldl (fun m e => m.erase e) st1.domEntries }
      (st2, some .ENOMEM)
    else
      ({ st with
          domEntries := st.domEntries + (st.areas.map (fun a => (dom, a)) : List _)
          domains := st.domains ++ [dom] }, none)
  | none =>
    ({ st with
        domEntries := st.domEntries + (st.areas.map (fun a => (dom, a)) : List _)
        domains := st.domains ++ [dom] }, none)

/-- iommufd_hw_pagetable_attach from device.c.  ccOk, resvOk, msiOk and
attachGroupOk report the outcomes of the externally provided steps
(enforce_cache_coherency, reserved-region enforcement, MSI cookie setup and
iommu_attach_group); enforce_cc says whether the device demands coherency
enforcement. -/
def iommufd_hw_pagetable_attach (st : St) (hwptId dev : Nat)
    (enforce_cc ccOk : Bool) (regions : List (Nat × Nat))
    (resvOk msiOk attachGroupOk : Bool) : St × Option Err :=
  if st.igroup_hwpt ≠ none ∧ st.igroup_hwpt ≠ some hwptId then
    (st, some .EINVAL)
  else if enforce_cc ∧ ¬ccOk then (st, some .EINVAL)
  else
    match iopt_table_enforce_dev_resv_regions st dev regions resvOk with
    | (st1, some e) => (st1, some e)
    | (st1, none) =>
      if st1.device_list = [] then
        if ¬msiOk then (iopt_remove_reserved_iova st1 dev, some .ENOMEM)
        else if ¬attachGroupOk then
          (iopt_remove_reserved_iova st1 dev, some .ENOMEM)
        else
          ({ st1 with
              igroup_hwpt := some hwptId
              device_list := st1.device_list ++ [dev] }, none)
      else ({ st1 with device_list := st1.device_list ++ [dev] }, none)

/-- iommufd_hw_pagetable_detach from device.c: drop the device from the
group's list, detach the group and clear its hwpt when the list empties,
and remove the device's reserved regions. -/
def iommufd_hw_pagetable_detach (st : St) (dev : Nat) : St :=
  let st1 := { st with device_list := st.device_list.erase dev }
  let st2 :=
    if st1.device_list = [] then { st1 with igroup_hwpt := none } else st1
  iopt_remove_reserved_iova st2 dev

/-- iommufd_hw_pagetable_link_ioas from hw_pagetable.c: a parent-less hwpt
is populated into the I/O page table (iopt_table_add_domain) and appended to
the ioas's hwpt list. -/
def iommufd_hw_pagetable_link_ioas (st : St) (dom hwptId : Nat)
    (hasParent : Bool) (fillFail : Option Nat) : St × Option Err :=
  if hasParent then (st, none)
  else
    match iopt_table_add_domain st dom fillFail with
    | (st1, none) => ({ st1 with hwpt_list := st1.hwpt_list ++ [hwptId] }, none)
    | (st1, some e) => (st1, some e)

/-- The attach-and-link tail of iommufd_hw_pagetable_alloc
(hw_pagetable.c): enforce coherency on the fresh domain, optionally attach
the device immediately, link the hwpt into the ioas, and on a link failure
detach again before the object is aborted and destroyed (the abort does not
touch the I/O page table because the hwpt was never linked). -/
def iommufd_hw_pagetable_alloc_flow (st : St) (hwptId dom dev : Nat)
    (enforce_cc ccOk : Bool) (regions : List (Nat × Nat))
    (resvOk msiOk attachGroupOk : Bool) (immediate_attach : Bool)
    (fillFail : Option Nat) : St × Option Err :=
  if enforce_cc ∧ ¬ccOk then (st, some .EINVAL)
  else
    match (if immediate_attach then
        iommufd_hw_pagetable_attach st hwptId dev enforce_cc ccOk regions
          resvOk msiOk attachGroupOk
      else (st, none)) with
    | (st1, some e) => (st1, some e)
    | (st1, none) =>
      match iommufd_hw_pagetable_link_ioas st1 dom hwptId false fillFail with
      | (st2, none) => (st2, none)
      | (st2, some e) =>
        ((if immediate_attach then iommufd_hw_pagetable_detach st2 dev
          else st2), some e)

end Attach

/-! ## Automatic domain selection (device.c) -/

namespace AutoDomain

/-- Outcome of trying iommufd_hw_pagetable_attach on one candidate. -/
inductive AttachRes where
  | ok
  | incompatible
  | err (e : Err)
deriving DecidableEq, Repr

/-- One hwpt on the ioas's hwpt list as seen by the selection loop. -/
structure Cand where
  id : Nat
  auto_domain : Bool
  lockable : Bool
deriving DecidableEq, Repr

/-- iommufd_device_auto_get_domain from device.c: walk the hwpt list,
skipping non-auto domains and objects that cannot be locked; an attach
returning -EINVAL (incompatible) moves to the next candidate, success uses
the candidate, and any other error propagates.  When no candidate attaches,
a new hwpt is allocated (alloc gives its id or the allocation/attach
error). -/
def iommufd_device_auto_get_domain (attach : Nat → AttachRes)
    (alloc : Except Err Nat) : List Cand → Except Err Nat
  | [] =>
    match alloc with
    | .ok i => .ok i
    | .error e => .error e
  | c :: rest =>
    if ¬c.auto_domain ∨ ¬c.lockable then
      iommufd_device_auto_get_domain attach alloc rest
    else
      match attach c.id with
      | .incompatible => iommufd_device_auto_get_domain attach alloc rest
      | .ok => .ok c.id
      | .err e => .error e

end AutoDomain

/-! ## Unmap notification and the unmap path -/

namespace Unmap

/-- One registered in-kernel access (iopt.access_list entry). -/
structure Access where
  id : Nat
deriving DecidableEq, Repr

/-- One pin held by an in-kernel access over an inclusive IOVA range. -/
structure Pin where
  accessId : Nat
  start : Nat
  last : Nat
deriving DecidableEq, Repr

/-- State for the unmap path: the registered accesses, the pins they hold,
the area index, the domain entries over inclusive IOVA ranges and the
attached domains. -/
structure St where
  accesses : List Access
  pins : Multiset Pin
  areas : List IoptArea
  domEntries : Multiset (Nat × Nat × Nat)
  doms : List Nat

/-- Events emitted by the unmap path, in execution order. -/
inductive Ev where
  | prevent (areaId : Nat)
  | notify (accessId iova len : Nat)
  | unfill (dom areaId : Nat)
  | unpin (areaId : Nat)
  | removeArea (areaId : Nat)
deriving DecidableEq, Repr

/-- iommufd_access_notify_unmap from device.c: call the unmap callback of
every access on the list, handing each the full (iova, length) range; the
callback contract (the function's doc comment) obliges each access to
release every pin intersecting the range before returning, so the returned
state drops those pins. -/
def iommufd_access_notify_unmap (st : St) (iova len : Nat) : St × List Ev :=
  ({ st with pins :=
      st.pins.filter (fun p => ¬(p.start ≤ iova + len - 1 ∧ iova ≤ p.last)) },
    st.accesses.map (fun a => .notify a.id iova len))

/-- Modelled from the spec: teardown of one Area during unmap
(io_pagetable.c iopt_unmap_iova_range): mark the Area non-accessible to new
pins, notify every in-kernel access and wait for their pins over the Area to
drain, unfill every attached domain over the Area's range, unpin the pages
and remove the Area from the index. -/
def unmapArea (st : St) (a : IoptArea) : St × List Ev :=
  let st1 :=
    { st with
        areas := st.areas.map
          (fun b => if b.id = a.id then { b with prevent_access := true } else b) }
  let n := iommufd_access_notify_unmap st1 a.iova_start
    (a.iova_last - a.iova_start + 1)
  let st2 := n.1
  let st3 :=
    { st2 with
        domEntries := st2.domEntries.filter
          (fun e => ¬(e.2.1 ≤ a.iova_last ∧ a.iova_start ≤ e.2.2)) }
  let st4 := { st3 with areas := st3.areas.filter (fun b => b.id ≠ a.id) }
  (st4, .prevent a.id :: (n.2 ++ (st.doms.map (fun d => .unfill d a.id) ++
    [.unpin a.id, .removeArea a.id])))

/-- Modelled from the spec: unmap of an IOVA range tears down every
intersecting Area in order; only after all of them have completed does the
unmap report success (io_pagetable.c iopt_unmap_iova_range). -/
def iopt_unmap_iova_range (st : St) (start last : Nat) : St × List Ev :=
  (st.areas.filter (fun a => a.iova_start ≤ last ∧ start ≤ a.iova_last)).foldl
    (fun acc a =>
      let r := unmapArea acc.1 a
      (r.1, acc.2 ++ r.2))
    (st, [])

/-- Classifier for notify events of the unmap trace. -/
def isNotify : Ev → Prop
  | .notify _ _ _ => True
  | _ => False

instance (e : Ev) : Decidable (isNotify e) := by
  unfold isNotify
  cases e <;> infer_instance

/-- Classifier for the teardown events of the unmap trace: removing a
hardware domain's entries over the Area or unpinning its pages. -/
def isTeardown : Ev → Prop
  | .unfill _ _ => True
  | .unpin _ => True
  | _ => False

instance (e : Ev) : Decidable (isTeardown e) := by
  unfold isTeardown
  cases e <;> infer_instance

end Unmap

namespace AutoDomain

/-- A candidate the selection loop passes over: not an automatic domain,
not lockable (being destroyed), or incompatible with the device. -/
def skipped (attach : Nat → AttachRes) (c : Cand) : Prop :=
  ¬ c.auto_domain = true ∨ ¬ c.lockable = true ∨ attach c.id = .incompatible

instance (attach : Nat → AttachRes) (c : Cand) :
    Decidable (skipped attach c) := by
  unfold skipped
  infer_instance

end AutoDomain

/-! ## Derived predicates used by the statements -/

/-- The per-segment validation of iommufd_access_pin_pages: not draining,
page aligned, and permitting the requested direction. -/
def segPass (lastIova flags : Nat) (s : Seg) : Prop :=
  s.area.prevent_access = false ∧
  iopt_area_contig_is_aligned s lastIova = true ∧
  check_area_prot s.area flags = true

instance (lastIova flags : Nat) (s : Seg) :
    Decidable (segPass lastIova flags s) := by
  unfold segPass; infer_instance

/-- The error iommufd_access_pin_pages reports for the first failing
segment. -/
def segErr (lastIova flags : Nat) (s : Seg) : Err :=
  if s.area.prevent_access = true ∨
      iopt_area_contig_is_aligned s lastIova = false then .EINVAL
  else .EPERM

/-- The per-segment validation of iommufd_access_rw: not draining and
permitting the requested direction (no alignment requirement). -/
def segPassRw (flags : Nat) (s : Seg) : Prop :=
  s.area.prevent_access = false ∧ check_area_prot s.area flags = true

instance (flags : Nat) (s : Seg) : Decidable (segPassRw flags s) := by
  unfold segPassRw; infer_instance

/-- The error iommufd_access_rw reports for the first failing segment. -/
def segErrRw (flags : Nat) (s : Seg) : Err :=
  if s.area.prevent_access = true then .EINVAL else .EPERM

/-- Adding the accesses of a list of segments in walk order. -/
def addAll (st : AccState) (l : List Seg) : AccState :=
  l.foldl iopt_area_add_access st

/-- Areas of one I/O page table never overlap in IOVA space (invariant of
the Area index). -/
def areasDisjoint (areas : List IoptArea) : Prop :=
  areas.Pairwise
    (fun x y => x.iova_last < y.iova_start ∨ y.iova_last < x.iova_start)

instance (areas : List IoptArea) : Decidable (areasDisjoint areas) := by
  unfold areasDisjoint
  infer_instance

/-! ## Lemmas about the contiguous-area walk -/

lemma findArea_eq_some {areas : List IoptArea} {p : Nat} {a : IoptArea}
    (h : findArea areas p = some a) :
    a ∈ areas ∧ a.iova_start ≤ p ∧ p ≤ a.iova_last := by
  refine ⟨List.mem_of_find?_eq_some h, ?_⟩
  have h2 := List.find?_some h
  simpa using h2

lemma contigWalkF_succ (areas : List IoptArea) (f cur lastIova : Nat)
    (first : Bool) :
    contigWalkF areas (f + 1) cur lastIova first =
      match findArea areas cur with
      | none => ([], false, cur)
      | some a =>
        if !first && decide (a.iova_start ≠ cur) then ([], false, cur)
        else if lastIova ≤ a.iova_last then ([⟨a, cur, lastIova⟩], true, cur)
        else
          let r := contigWalkF areas f (a.iova_last + 1) lastIova false
          (⟨a, cur, a.iova_last⟩ :: r.1, r.2.1, r.2.2) := rfl

lemma contigWalkF_fuel (areas : List IoptArea) (lastIova : Nat) :
    ∀ f1 f2 cur first, cur ≤ lastIova →
      lastIova + 1 - cur ≤ f1 → lastIova + 1 - cur ≤ f2 →
      contigWalkF areas f1 cur lastIova first =
        contigWalkF areas f2 cur lastIova first := by
  intro f1
  induction f1 with
  | zero => intro f2 cur first hc h1 h2; omega
  | succ f ih =>
    intro f2 cur first hc h1 h2
    cases f2 with
    | zero => omega
    | succ f2 =>
      rw [contigWalkF_succ, contigWalkF_succ]
      cases hfind : findArea areas cur with
      | none => rfl
      | some a =>
        obtain ⟨-, ha1, ha2⟩ := findArea_eq_some hfind
        simp only
        by_cases hff : (!first && decide (a.iova_start ≠ cur)) = true
        · rw [if_pos hff, if_pos hff]
        · rw [if_neg hff, if_neg hff]
          by_cases hl : lastIova ≤ a.iova_last
          · rw [if_pos hl, if_pos hl]
          · rw [if_neg hl, if_neg hl]
            rw [ih f2 (a.iova_last + 1) false (by omega) (by omega) (by omega)]

lemma contigWalkF_sound (areas : List IoptArea) (lastIova : Nat) :
    ∀ fuel cur first s, s ∈ (contigWalkF areas fuel cur lastIova first).1 →
      s.area ∈ areas ∧ s.area.iova_start ≤ s.cur ∧ s.cur ≤ s.area.iova_last ∧
      cur ≤ s.cur ∧ s.lastIova = min lastIova s.area.iova_last := by
  intro fuel
  induction fuel with
  | zero => intro cur first s hs; simp [contigWalkF] at hs
  | succ f ih =>
    intro cur first s hs
    rw [contigWalkF_succ] at hs
    cases hfind : findArea areas cur with
    | none => rw [hfind] at hs; simp at hs
    | some a =>
      rw [hfind] at hs
      dsimp only at hs
      obtain ⟨ha, ha1, ha2⟩ := findArea_eq_some hfind
      by_cases hff : (!first && decide (a.iova_start ≠ cur)) = true
      · rw [if_pos hff] at hs; simp at hs
      · rw [if_neg hff] at hs
        by_cases hl : lastIova ≤ a.iova_last
        · rw [if_pos hl] at hs
          simp only [List.mem_singleton] at hs
          subst hs
          exact ⟨ha, ha1, ha2, le_refl _, by simp [Nat.min_eq_left hl]⟩
        · rw [if_neg hl] at hs
          simp only [List.mem_cons] at hs
          rcases hs with hs | hs
          · subst hs
            refine ⟨ha, ha1, ha2, le_refl _, ?_⟩
            simp [Nat.min_eq_right (by omega : a.iova_last ≤ lastIova)]
          · obtain ⟨h1, h2, h3, h4, h5⟩ := ih (a.iova_last + 1) false s hs
            exact ⟨h1, h2, h3, by omega, h5⟩

lemma contigWalkF_covers (areas : List IoptArea) (lastIova : Nat) :
    ∀ fuel cur first, (contigWalkF areas fuel cur lastIova first).2.1 = true →
      ∀ p, cur ≤ p → p ≤ lastIova →
        ∃ s ∈ (contigWalkF areas fuel cur lastIova first).1,
          s.cur ≤ p ∧ p ≤ s.lastIova := by
  intro fuel
  induction fuel with
  | zero => intro cur first hd; simp [contigWalkF] at hd
  | succ f ih =>
    intro cur first hd p hp1 hp2
    rw [contigWalkF_succ] at hd ⊢
    cases hfind : findArea areas cur with
    | none => rw [hfind] at hd; simp at hd
    | some a =>
      rw [hfind] at hd
      dsimp only at hd ⊢
      obtain ⟨ha, ha1, ha2⟩ := findArea_eq_some hfind
      by_cases hff : (!first && decide (a.iova_start ≠ cur)) = true
      · rw [if_pos hff] at hd; simp at hd
      · rw [if_neg hff] at hd ⊢
        by_cases hl : lastIova ≤ a.iova_last
        · rw [if_pos hl] at hd ⊢
          exact ⟨⟨a, cur, lastIova⟩, by simp, hp1, hp2⟩
        · rw [if_neg hl] at hd ⊢
          by_cases hpa : p ≤ a.iova_last
          · exact ⟨⟨a, cur, a.iova_last⟩, by simp, hp1, hpa⟩
          · obtain ⟨s, hs, hs1, hs2⟩ :=
              ih (a.iova_last + 1) false hd p (by omega) hp2
            exact ⟨s, by simp [hs], hs1, hs2⟩

lemma contigWalkF_head_cur (areas : List IoptArea) (lastIova : Nat)
    (fuel cur : Nat) (first : Bool) {s : Seg} {rest : List Seg}
    (h : (contigWalkF areas fuel cur lastIova first).1 = s :: rest) :
    s.cur = cur := by
  cases fuel with
  | zero => simp [contigWalkF] at h
  | succ f =>
    rw [contigWalkF_succ] at h
    cases hfind : findArea areas cur with
    | none => rw [hfind] at h; simp at h
    | some a =>
      rw [hfind] at h
      dsimp only at h
      by_cases hff : (!first && decide (a.iova_start ≠ cur)) = true
      · rw [if_pos hff] at h; simp at h
      · rw [if_neg hff] at h
        by_cases hl : lastIova ≤ a.iova_last
        · rw [if_pos hl] at h
          rw [List.cons.injEq] at h
          rw [← h.1]
        · rw [if_neg hl] at h
          rw [List.cons.injEq] at h
          rw [← h.1]

lemma contigWalkF_front (areas : List IoptArea) (lastIova : Nat) :
    ∀ fuel cur first pre s rest,
      cur ≤ lastIova → lastIova + 1 - cur ≤ fuel →
      (contigWalkF areas fuel cur lastIova first).1 = pre ++ s :: rest →
      pre ≠ [] →
      cur < s.cur ∧
        ∀ g, s.cur - cur ≤ g →
          (contigWalkF areas g cur (s.cur - 1) first).1 = pre := by
  intro fuel
  induction fuel with
  | zero => intro cur first pre s rest hc hb; omega
  | succ f ih =>
    intro cur first pre s rest hc hb heq hpre
    rw [contigWalkF_succ] at heq
    cases hfind : findArea areas cur with
    | none => rw [hfind] at heq; simp at heq
    | some a =>
      rw [hfind] at heq
      dsimp only at heq
      obtain ⟨ha, ha1, ha2⟩ := findArea_eq_some hfind
      by_cases hff : (!first && decide (a.iova_start ≠ cur)) = true
      · rw [if_pos hff] at heq; simp at heq
      · rw [if_neg hff] at heq
        by_cases hl : lastIova ≤ a.iova_last
        · rw [if_pos hl] at heq
          cases pre with
          | nil => exact absurd rfl hpre
          | cons p pre' =>
            rw [List.cons_append, List.cons.injEq] at heq
            exact absurd heq.2.symm (by simp)
        · rw [if_neg hl] at heq
          cases pre with
          | nil => exact absurd rfl hpre
          | cons p pre' =>
            rw [List.cons_append, List.cons.injEq] at heq
            obtain ⟨hxp, htail⟩ := heq
            cases hpre' : pre' with
            | nil =>
              subst hpre'
              have hscur : s.cur = a.iova_last + 1 :=
                contigWalkF_head_cur areas lastIova f (a.iova_last + 1) false
                  htail
              have hlt : cur < s.cur := by omega
              refine ⟨hlt, ?_⟩
              intro g hg
              cases g with
              | zero => omega
              | succ g' =>
                rw [contigWalkF_succ, hfind]
                dsimp only
                rw [if_neg hff]
                have hle : s.cur - 1 ≤ a.iova_last := by omega
                rw [if_pos hle]
                have : s.cur - 1 = a.iova_last := by omega
                simp [this, ← hxp]
            | cons q pre'' =>
              rw [hpre'] at htail
              obtain ⟨hlt, hall⟩ :=
                ih (a.iova_last + 1) false (q :: pre'') s rest (by omega)
                  (by omega) htail (by simp)
              refine ⟨by omega, ?_⟩
              intro g hg
              cases g with
              | zero => omega
              | succ g' =>
                rw [contigWalkF_succ, hfind]
                dsimp only
                rw [if_neg hff]
                have hgt : ¬(s.cur - 1 ≤ a.iova_last) := by omega
                rw [if_neg hgt]
                have htl := hall g' (by omega)
                simp [htl, ← hxp]

lemma contigWalkF_stop (areas : List IoptArea) (lastIova : Nat) :
    ∀ fuel cur first segs d stop,
      contigWalkF areas fuel cur lastIova first = (segs, d, stop) →
      cur ≤ lastIova → lastIova + 1 - cur ≤ fuel → d = false →
      (segs = [] → stop = cur) ∧
        (segs ≠ [] →
          cur < stop ∧
            ∀ g, stop - cur ≤ g →
              (contigWalkF areas g cur (stop - 1) first).1 = segs) := by
  intro fuel
  induction fuel with
  | zero => intro cur first segs d stop heq hc hb; omega
  | succ f ih =>
    intro cur first segs d stop heq hc hb hd
    rw [contigWalkF_succ] at heq
    cases hfind : findArea areas cur with
    | none =>
      rw [hfind] at heq
      dsimp only at heq
      rw [Prod.mk.injEq, Prod.mk.injEq] at heq
      refine ⟨fun _ => heq.2.2.symm, fun hne => absurd heq.1.symm hne⟩
    | some a =>
      rw [hfind] at heq
      dsimp only at heq
      obtain ⟨ha, ha1, ha2⟩ := findArea_eq_some hfind
      by_cases hff : (!first && decide (a.iova_start ≠ cur)) = true
      · rw [if_pos hff] at heq
        rw [Prod.mk.injEq, Prod.mk.injEq] at heq
        refine ⟨fun _ => heq.2.2.symm, fun hne => absurd heq.1.symm hne⟩
      · rw [if_neg hff] at heq
        by_cases hl : lastIova ≤ a.iova_last
        · rw [if_pos hl] at heq
          rw [Prod.mk.injEq, Prod.mk.injEq] at heq
          rw [← heq.2.1] at hd
          simp at hd
        · rw [if_neg hl] at heq
          rw [Prod.mk.injEq, Prod.mk.injEq] at heq
          obtain ⟨hsegs, hd2, hstop⟩ := heq
          obtain ⟨hemp, hne⟩ :=
            ih (a.iova_last + 1) false
              (contigWalkF areas f (a.iova_last + 1) lastIova false).1
              (contigWalkF areas f (a.iova_last + 1) lastIova false).2.1
              (contigWalkF areas f (a.iova_last + 1) lastIova false).2.2
              rfl (by omega) (by omega) (by rw [hd2]; exact hd)
          constructor
          · intro hs
            rw [← hsegs] at hs
            simp at hs
          · intro _
            by_cases hrs :
                (contigWalkF areas f (a.iova_last + 1) lastIova false).1 = []
            · have hstop2 : stop = a.iova_last + 1 := by
                rw [← hstop, hemp hrs]
              refine ⟨by omega, ?_⟩
              intro g hg
              cases g with
              | zero => omega
              | succ g' =>
                rw [contigWalkF_succ, hfind]
                dsimp only
                rw [if_neg hff]
                have hle : stop - 1 ≤ a.iova_last := by omega
                rw [if_pos hle]
                have h1 : stop - 1 = a.iova_last := by omega
                rw [← hsegs, hrs]
                simp [h1]
            · obtain ⟨hlt, hall⟩ := hne hrs
              refine ⟨by omega, ?_⟩
              intro g hg
              cases g with
              | zero => omega
              | succ g' =>
                rw [contigWalkF_succ, hfind]
                dsimp only
                rw [if_neg hff]
                have hgt : ¬(stop - 1 ≤ a.iova_last) := by omega
                rw [if_neg hgt]
                have htl := hall g' (by omega)
                rw [← hsegs, ← hstop]
                simp [htl]


/-! ## Multiset bookkeeping lemmas -/

lemma foldl_erase_cancel {α : Type} [DecidableEq α] :
    ∀ (l : List α) (m : Multiset α),
      l.foldl (fun m e => m.erase e) (m + (l : Multiset α)) = m := by
  intro l
  induction l with
  | nil => intro m; simp
  | cons x l ih =>
    intro m
    have h1 : m + ((x :: l : List α) : Multiset α) =
        x ::ₘ (m + (l : Multiset α)) := by
      rw [← Multiset.cons_coe, Multiset.add_cons]
    rw [List.foldl_cons, h1, Multiset.erase_cons_head]
    exact ih m

lemma addAll_eq : ∀ (l : List Seg) (st : AccState),
    addAll st l =
      st + ((l.map segEntry : List AccessEntry) : Multiset AccessEntry) := by
  intro l
  induction l with
  | nil => intro st; simp [addAll]
  | cons x l ih =>
    intro st
    have h1 : addAll st (x :: l) = addAll (segEntry x ::ₘ st) l := rfl
    rw [h1, ih]
    rw [List.map_cons, ← Multiset.cons_coe, Multiset.add_cons,
      Multiset.cons_add]

lemma removeLoop_addAll (l : List Seg) (st : AccState) :
    removeLoop l (addAll st l) = st := by
  have h1 : removeLoop l (addAll st l) =
      (l.map segEntry).foldl (fun m e => m.erase e) (addAll st l) := by
    rw [List.foldl_map]
    rfl
  rw [h1, addAll_eq]
  exact foldl_erase_cancel (l.map segEntry) st

/-! ## Characterizations of the loops -/

lemma first_split_unique {α : Type} {P : α → Prop} :
    ∀ (pre1 : List α) (l : List α) (s1 : α) (r1 : List α)
      (pre2 : List α) (s2 : α) (r2 : List α),
      l = pre1 ++ s1 :: r1 → l = pre2 ++ s2 :: r2 →
      (∀ t ∈ pre1, P t) → ¬ P s1 → (∀ t ∈ pre2, P t) → ¬ P s2 →
      pre1 = pre2 ∧ s1 = s2 := by
  intro pre1
  induction pre1 with
  | nil =>
    intro l s1 r1 pre2 s2 r2 h1 h2 hp1 hn1 hp2 hn2
    cases pre2 with
    | nil =>
      rw [List.nil_append] at h1 h2
      rw [h1, List.cons.injEq] at h2
      exact ⟨rfl, h2.1⟩
    | cons y pre2' =>
      rw [List.nil_append] at h1
      rw [h1, List.cons_append, List.cons.injEq] at h2
      exact absurd (h2.1 ▸ hp2 y (by simp)) hn1
  | cons x pre1' ih =>
    intro l s1 r1 pre2 s2 r2 h1 h2 hp1 hn1 hp2 hn2
    cases pre2 with
    | nil =>
      rw [List.nil_append] at h2
      rw [h2, List.cons_append, List.cons.injEq] at h1
      exact absurd (h1.1.symm ▸ hp1 x (by simp)) hn2
    | cons y pre2' =>
      rw [List.cons_append] at h1 h2
      rw [h1, List.cons.injEq] at h2
      obtain ⟨hxy, htail⟩ := h2
      obtain ⟨hpre, hs⟩ :=
        ih (pre1' ++ s1 :: r1) s1 r1 pre2' s2 r2 rfl htail
          (fun t ht => hp1 t (by simp [ht])) hn1
          (fun t ht => hp2 t (by simp [ht])) hn2
      exact ⟨by rw [hxy, hpre], hs⟩

lemma pinLoop_characterize (lastIova flags : Nat) :
    ∀ (segs : List Seg) (st : AccState) (pgs : List (Nat × Nat)),
      ((∀ s ∈ segs, segPass lastIova flags s) ∧
        pinLoop lastIova flags segs st pgs =
          (addAll st segs, pgs ++ (segs.map segPages).join, none)) ∨
      (∃ pre s rest, segs = pre ++ s :: rest ∧
        (∀ t ∈ pre, segPass lastIova flags t) ∧
        ¬ segPass lastIova flags s ∧
        pinLoop lastIova flags segs st pgs =
          (addAll st pre, pgs ++ (pre.map segPages).join,
            some (segErr lastIova flags s, s.cur))) := by
  intro segs
  induction segs with
  | nil =>
    intro st pgs
    left
    exact ⟨by simp, by simp [pinLoop, addAll]⟩
  | cons s rest ih =>
    intro st pgs
    by_cases h1 :
        (s.area.prevent_access || !iopt_area_contig_is_aligned s lastIova) = true
    · right
      have h1' : s.area.prevent_access = true ∨
          iopt_area_contig_is_aligned s lastIova = false := by
        simpa using h1
      refine ⟨[], s, rest, by simp, by simp, ?_, ?_⟩
      · intro hp
        obtain ⟨hp1, hp2, _⟩ := hp
        rcases h1' with h | h
        · rw [hp1] at h; simp at h
        · rw [hp2] at h; simp at h
      · have h2 : pinLoop lastIova flags (s :: rest) st pgs =
            (st, pgs, some (.EINVAL, s.cur)) := by
          simp only [pinLoop]
          rw [if_pos h1]
        rw [h2]
        have h3 : segErr lastIova flags s = .EINVAL := by
          unfold segErr
          rw [if_pos h1']
        simp [addAll, h3]
    · by_cases h2 : (!check_area_prot s.area flags) = true
      · right
        refine ⟨[], s, rest, by simp, by simp, ?_, ?_⟩
        · intro hp
          obtain ⟨_, _, hp3⟩ := hp
          rw [hp3] at h2
          simp at h2
        · have h3 : pinLoop lastIova flags (s :: rest) st pgs =
              (st, pgs, some (.EPERM, s.cur)) := by
            simp only [pinLoop]
            rw [if_neg h1, if_pos h2]
          rw [h3]
          have h4 : segErr lastIova flags s = .EPERM := by
            unfold segErr
            rw [if_neg ?_]
            intro hc
            rcases hc with hc | hc
            · rw [hc] at h1; simp at h1
            · rw [hc] at h1; simp at h1
          simp [addAll, h4]
      · have h1' : s.area.prevent_access = false ∧
            iopt_area_contig_is_aligned s lastIova = true := by
          simpa using h1
        have hpass : segPass lastIova flags s :=
          ⟨h1'.1, h1'.2, by simpa using h2⟩
        have hstep : pinLoop lastIova flags (s :: rest) st pgs =
            pinLoop lastIova flags rest (iopt_area_add_access st s)
              (pgs ++ segPages s) := by
          simp only [pinLoop]
          rw [if_neg h1, if_neg h2]
        rcases ih (iopt_area_add_access st s) (pgs ++ segPages s) with
          ⟨hall, heq⟩ | ⟨pre, t, r2, hsplit, hpre, hfail, heq⟩
        · left
          refine ⟨?_, ?_⟩
          · intro u hu
            rcases List.mem_cons.1 hu with hu | hu
            · rw [hu]; exact hpass
            · exact hall u hu
          · rw [hstep, heq]
            have ha : addAll (iopt_area_add_access st s) rest =
                addAll st (s :: rest) := rfl
            rw [ha]
            simp
        · right
          refine ⟨s :: pre, t, r2, by rw [hsplit, List.cons_append],
            ?_, hfail, ?_⟩
          · intro u hu
            rcases List.mem_cons.1 hu with hu | hu
            · rw [hu]; exact hpass
            · exact hpre u hu
          · rw [hstep, heq]
            have ha : addAll (iopt_area_add_access st s) pre =
                addAll st (s :: pre) := rfl
            rw [ha]
            simp

lemma rwLoop_characterize (flags : Nat) :
    ∀ (segs : List Seg) (mem : Mem) (buf : Buf) (doff : Nat),
      ((∀ s ∈ segs, segPassRw flags s) ∧
        (rwLoop flags segs mem buf doff).2.2 = none) ∨
      (∃ pre s rest, segs = pre ++ s :: rest ∧
        (∀ t ∈ pre, segPassRw flags t) ∧
        ¬ segPassRw flags s ∧
        (rwLoop flags segs mem buf doff).2.2 = some (segErrRw flags s)) := by
  intro segs
  induction segs with
  | nil =>
    intro mem buf doff
    left
    exact ⟨by simp, by simp [rwLoop]⟩
  | cons s rest ih =>
    intro mem buf doff
    by_cases h1 : s.area.prevent_access = true
    · right
      refine ⟨[], s, rest, by simp, by simp, ?_, ?_⟩
      · intro hp; rw [hp.1] at h1; simp at h1
      · have h2 : rwLoop flags (s :: rest) mem buf doff =
            (mem, buf, some .EINVAL) := by
          simp only [rwLoop]
          rw [if_pos h1]
        rw [h2]
        have h3 : segErrRw flags s = .EINVAL := by
          unfold segErrRw
          rw [if_pos h1]
        simp [h3]
    · by_cases h2 : (!check_area_prot s.area flags) = true
      · right
        refine ⟨[], s, rest, by simp, by simp, ?_, ?_⟩
        · intro hp; rw [hp.2] at h2; simp at h2
        · have h3 : rwLoop flags (s :: rest) mem buf doff =
              (mem, buf, some .EPERM) := by
            simp only [rwLoop]
            rw [if_neg h1, if_pos h2]
          rw [h3]
          have h4 : segErrRw flags s = .EPERM := by
            unfold segErrRw
            rw [if_neg h1]
          simp [h4]
      · have hpass : segPassRw flags s :=
          ⟨by simpa using h1, by simpa using h2⟩
        have hstep : rwLoop flags (s :: rest) mem buf doff =
            rwLoop flags rest
              (iopt_pages_rw_access mem buf s.area.pages
                (iopt_area_start_byte s.area s.cur) doff
                (s.lastIova - s.cur + 1) flags).1
              (iopt_pages_rw_access mem buf s.area.pages
                (iopt_area_start_byte s.area s.cur) doff
                (s.lastIova - s.cur + 1) flags).2
              (doff + (s.lastIova - s.cur + 1)) := by
          simp only [rwLoop]
          rw [if_neg h1, if_neg h2]
        rcases ih
            (iopt_pages_rw_access mem buf s.area.pages
              (iopt_area_start_byte s.area s.cur) doff
              (s.lastIova - s.cur + 1) flags).1
            (iopt_pages_rw_access mem buf s.area.pages
              (iopt_area_start_byte s.area s.cur) doff
              (s.lastIova - s.cur + 1) flags).2
            (doff + (s.lastIova - s.cur + 1)) with
          ⟨hall, heq⟩ | ⟨pre, t, r2, hsplit, hpre, hfail, heq⟩
        · left
          refine ⟨?_, by rw [hstep]; exact heq⟩
          intro u hu
          rcases List.mem_cons.1 hu with hu | hu
          · rw [hu]; exact hpass
          · exact hall u hu
        · right
          refine ⟨s :: pre, t, r2, by rw [hsplit, List.cons_append], ?_,
            hfail, by rw [hstep]; exact heq⟩
          intro u hu
          rcases List.mem_cons.1 hu with hu | hu
          · rw [hu]; exact hpass
          · exact hpre u hu


/-! ## Top-level characterization of iommufd_access_pin_pages -/

lemma pin_pages_unfold (areas : List IoptArea) (st : AccState)
    (iova length flags : Nat) (h0 : ¬ length = 0)
    (hov : ¬ ULONG_MAX < iova + (length - 1)) :
    iommufd_access_pin_pages areas st iova length flags =
      (match pinLoop (iova + (length - 1)) flags
          (contigSegs areas iova (iova + (length - 1))).1 st [] with
      | (st', pgs, none) =>
        if (contigSegs areas iova (iova + (length - 1))).2.1 then
          (st', pgs, none)
        else
          (pinUnwind areas st' iova
            (contigSegs areas iova (iova + (length - 1))).2.2, [],
            some .ENOENT)
      | (st', _, some (e, cur)) =>
        (pinUnwind areas st' iova cur, [], some e)) := by
  unfold iommufd_access_pin_pages
  rw [if_neg h0, if_neg hov]

lemma pin_pages_err_state (areas : List IoptArea) (st : AccState)
    (iova length flags : Nat) (e : Err)
    (he : (iommufd_access_pin_pages areas st iova length flags).2.2 = some e) :
    (iommufd_access_pin_pages areas st iova length flags).1 = st := by
  by_cases h0 : length = 0
  · unfold iommufd_access_pin_pages
    rw [if_pos h0]
  · by_cases hov : ULONG_MAX < iova + (length - 1)
    · unfold iommufd_access_pin_pages
      rw [if_neg h0, if_pos hov]
    · rw [pin_pages_unfold areas st iova length flags h0 hov] at he ⊢
      rcases pinLoop_characterize (iova + (length - 1)) flags
          (contigSegs areas iova (iova + (length - 1))).1 st [] with
        ⟨hall, heq⟩ | ⟨pre, s, rest, hsplit, hpre, hfail, heq⟩
      · rw [heq] at he ⊢
        dsimp only at he ⊢
        by_cases hdone :
            (contigSegs areas iova (iova + (length - 1))).2.1 = true
        · rw [if_pos hdone] at he
          simp at he
        · rw [if_neg hdone] at he ⊢
          have hstop := contigWalkF_stop areas (iova + (length - 1))
            ((iova + (length - 1)) + 1 - iova) iova true
            (contigSegs areas iova (iova + (length - 1))).1
            (contigSegs areas iova (iova + (length - 1))).2.1
            (contigSegs areas iova (iova + (length - 1))).2.2
            rfl (by omega) (by omega) (by simpa using hdone)
          by_cases hemp :
              (contigSegs areas iova (iova + (length - 1))).1 = []
          · have hstop2 := hstop.1 hemp
            unfold pinUnwind
            rw [if_neg (by omega)]
            rw [hemp]
            simp [addAll]
          · obtain ⟨hlt, hall2⟩ := hstop.2 hemp
            unfold pinUnwind
            rw [if_pos hlt]
            have hall3 : (contigSegs areas iova
                ((contigSegs areas iova (iova + (length - 1))).2.2 - 1)).1 =
                (contigSegs areas iova (iova + (length - 1))).1 :=
              hall2 (((contigSegs areas iova (iova + (length - 1))).2.2 - 1) +
                1 - iova) (by omega)
            rw [hall3]
            exact removeLoop_addAll _ st
      · rw [heq] at he ⊢
        dsimp only at he ⊢
        cases pre with
        | nil =>
          have hs2 : (contigWalkF areas
              ((iova + (length - 1)) + 1 - iova) iova
              (iova + (length - 1)) true).1 = s :: rest := by
            simpa [contigSegs] using hsplit
          have hc := contigWalkF_head_cur areas (iova + (length - 1))
            ((iova + (length - 1)) + 1 - iova) iova true hs2
          unfold pinUnwind
          rw [if_neg (by omega)]
          simp [addAll]
        | cons p pre' =>
          obtain ⟨hlt, hall2⟩ := contigWalkF_front areas (iova + (length - 1))
            ((iova + (length - 1)) + 1 - iova) iova true (p :: pre') s rest
            (by omega) (by omega) (by simpa [contigSegs] using hsplit)
            (by simp)
          unfold pinUnwind
          rw [if_pos hlt]
          have hall3 : (contigSegs areas iova (s.cur - 1)).1 = p :: pre' :=
            hall2 ((s.cur - 1) + 1 - iova) (by omega)
          rw [hall3]
          exact removeLoop_addAll (p :: pre') st

lemma pin_pages_success (areas : List IoptArea) (st : AccState)
    (iova length flags : Nat) (h0 : ¬ length = 0)
    (hov : ¬ ULONG_MAX < iova + (length - 1))
    (he : (iommufd_access_pin_pages areas st iova length flags).2.2 = none) :
    (contigSegs areas iova (iova + (length - 1))).2.1 = true ∧
    (∀ s ∈ (contigSegs areas iova (iova + (length - 1))).1,
      segPass (iova + (length - 1)) flags s) ∧
    (iommufd_access_pin_pages areas st iova length flags).1 =
      addAll st (contigSegs areas iova (iova + (length - 1))).1 ∧
    (iommufd_access_pin_pages areas st iova length flags).2.1 =
      ((contigSegs areas iova (iova + (length - 1))).1.map segPages).join := by
  rw [pin_pages_unfold areas st iova length flags h0 hov] at he ⊢
  rcases pinLoop_characterize (iova + (length - 1)) flags
      (contigSegs areas iova (iova + (length - 1))).1 st [] with
    ⟨hall, heq⟩ | ⟨pre, s, rest, hsplit, hpre, hfail, heq⟩
  · rw [heq] at he ⊢
    dsimp only at he ⊢
    by_cases hdone : (contigSegs areas iova (iova + (length - 1))).2.1 = true
    · rw [if_pos hdone] at he ⊢
      exact ⟨hdone, hall, rfl, by simp⟩
    · rw [if_neg hdone] at he
      simp at he
  · rw [heq] at he
    dsimp only at he
    simp at he

lemma pin_pages_success_of (areas : List IoptArea) (st : AccState)
    (iova length flags : Nat) (h0 : ¬ length = 0)
    (hov : ¬ ULONG_MAX < iova + (length - 1))
    (hdone : (contigSegs areas iova (iova + (length - 1))).2.1 = true)
    (hall : ∀ s ∈ (contigSegs areas iova (iova + (length - 1))).1,
      segPass (iova + (length - 1)) flags s) :
    (iommufd_access_pin_pages areas st iova length flags).2.2 = none := by
  rw [pin_pages_unfold areas st iova length flags h0 hov]
  rcases pinLoop_characterize (iova + (length - 1)) flags
      (contigSegs areas iova (iova + (length - 1))).1 st [] with
    ⟨_, heq⟩ | ⟨pre, s, rest, hsplit, hpre, hfail, heq⟩
  · rw [heq]
    dsimp only
    rw [if_pos hdone]
  · exact absurd (hall s (by rw [hsplit]; simp)) hfail

lemma pin_pages_err_first (areas : List IoptArea) (st : AccState)
    (iova length flags : Nat) (h0 : ¬ length = 0)
    (hov : ¬ ULONG_MAX < iova + (length - 1))
    (pre : List Seg) (s : Seg) (rest : List Seg)
    (hsplit : (contigSegs areas iova (iova + (length - 1))).1 =
      pre ++ s :: rest)
    (hpre : ∀ t ∈ pre, segPass (iova + (length - 1)) flags t)
    (hfail : ¬ segPass (iova + (length - 1)) flags s) :
    (iommufd_access_pin_pages areas st iova length flags).2.2 =
      some (segErr (iova + (length - 1)) flags s) := by
  rw [pin_pages_unfold areas st iova length flags h0 hov]
  rcases pinLoop_characterize (iova + (length - 1)) flags
      (contigSegs areas iova (iova + (length - 1))).1 st [] with
    ⟨hall, heq⟩ | ⟨pre2, s2, rest2, hsplit2, hpre2, hfail2, heq⟩
  · exact absurd (hall s (by rw [hsplit]; simp)) hfail
  · obtain ⟨hpp, hss⟩ := first_split_unique pre2
      (contigSegs areas iova (iova + (length - 1))).1 s2 rest2 pre s rest
      hsplit2 hsplit hpre2 hfail2 hpre hfail
    rw [heq]
    dsimp only
    rw [hss]

lemma pin_pages_enoent (areas : List IoptArea) (st : AccState)
    (iova length flags : Nat) (h0 : ¬ length = 0)
    (hov : ¬ ULONG_MAX < iova + (length - 1))
    (hall : ∀ s ∈ (contigSegs areas iova (iova + (length - 1))).1,
      segPass (iova + (length - 1)) flags s)
    (hnd : (contigSegs areas iova (iova + (length - 1))).2.1 = false) :
    (iommufd_access_pin_pages areas st iova length flags).2.2 =
      some .ENOENT := by
  rw [pin_pages_unfold areas st iova length flags h0 hov]
  rcases pinLoop_characterize (iova + (length - 1)) flags
      (contigSegs areas iova (iova + (length - 1))).1 st [] with
    ⟨_, heq⟩ | ⟨pre, s, rest, hsplit, hpre, hfail, heq⟩
  · rw [heq]
    dsimp only
    rw [hnd]
    simp
  · exact absurd (hall s (by rw [hsplit]; simp)) hfail


/-! ## Top-level characterization of iommufd_access_rw and unpin -/

lemma rw_unfold (areas : List IoptArea) (st : AccState) (mem : Mem)
    (buf : Buf) (iova length flags : Nat) (h0 : ¬ length = 0)
    (hov : ¬ ULONG_MAX < iova + (length - 1)) :
    iommufd_access_rw areas st mem buf iova length flags =
      (match rwLoop flags (contigSegs areas iova (iova + (length - 1))).1
          mem buf 0 with
      | (mem', buf', none) =>
        if (contigSegs areas iova (iova + (length - 1))).2.1 then
          (st, mem', buf', none)
        else (st, mem', buf', some .ENOENT)
      | (mem', buf', some e) => (st, mem', buf', some e)) := by
  unfold iommufd_access_rw
  rw [if_neg h0, if_neg hov]

lemma rw_state (areas : List IoptArea) (st : AccState) (mem : Mem)
    (buf : Buf) (iova length flags : Nat) :
    (iommufd_access_rw areas st mem buf iova length flags).1 = st := by
  by_cases h0 : length = 0
  · unfold iommufd_access_rw
    rw [if_pos h0]
  · by_cases hov : ULONG_MAX < iova + (length - 1)
    · unfold iommufd_access_rw
      rw [if_neg h0, if_pos hov]
    · rw [rw_unfold areas st mem buf iova length flags h0 hov]
      rcases hm : rwLoop flags
          (contigSegs areas iova (iova + (length - 1))).1 mem buf 0 with
        ⟨mem', buf', e'⟩
      cases e' with
      | none =>
        dsimp only
        by_cases hdone :
            (contigSegs areas iova (iova + (length - 1))).2.1 = true
        · rw [if_pos hdone]
        · rw [if_neg hdone]
      | some e => rfl

lemma rw_success_iff (areas : List IoptArea) (st : AccState) (mem : Mem)
    (buf : Buf) (iova length flags : Nat) (h0 : ¬ length = 0)
    (hov : ¬ ULONG_MAX < iova + (length - 1)) :
    (iommufd_access_rw areas st mem buf iova length flags).2.2.2 = none ↔
      ((contigSegs areas iova (iova + (length - 1))).2.1 = true ∧
        ∀ s ∈ (contigSegs areas iova (iova + (length - 1))).1,
          segPassRw flags s) := by
  rw [rw_unfold areas st mem buf iova length flags h0 hov]
  rcases hm : rwLoop flags
      (contigSegs areas iova (iova + (length - 1))).1 mem buf 0 with
    ⟨mem', buf', e'⟩
  rcases rwLoop_characterize flags
      (contigSegs areas iova (iova + (length - 1))).1 mem buf 0 with
    ⟨hall, heq⟩ | ⟨pre, s, rest, hsplit, hpre, hfail, heq⟩
  · rw [hm] at heq
    dsimp only at heq
    subst heq
    dsimp only
    by_cases hdone : (contigSegs areas iova (iova + (length - 1))).2.1 = true
    · rw [if_pos hdone]
      exact iff_of_true rfl ⟨hdone, hall⟩
    · rw [if_neg hdone]
      simp only [Bool.not_eq_true] at hdone
      simp [hdone]
  · rw [hm] at heq
    dsimp only at heq
    subst heq
    dsimp only
    constructor
    · intro hc
      simp at hc
    · intro ⟨_, hall⟩
      exact absurd (hall s (by rw [hsplit]; simp)) hfail

lemma rw_err_eq_pin_err (areas : List IoptArea) (st : AccState) (mem : Mem)
    (buf : Buf) (iova length flags : Nat)
    (hal : ∀ s ∈ (contigSegs areas iova (iova + (length - 1))).1,
      iopt_area_contig_is_aligned s (iova + (length - 1)) = true) :
    (iommufd_access_rw areas st mem buf iova length flags).2.2.2 =
      (iommufd_access_pin_pages areas st iova length flags).2.2 := by
  by_cases h0 : length = 0
  · unfold iommufd_access_rw iommufd_access_pin_pages
    rw [if_pos h0, if_pos h0]
  · by_cases hov : ULONG_MAX < iova + (length - 1)
    · unfold iommufd_access_rw iommufd_access_pin_pages
      rw [if_neg h0, if_pos hov, if_neg h0, if_pos hov]
    · rw [rw_unfold areas st mem buf iova length flags h0 hov,
        pin_pages_unfold areas st iova length flags h0 hov]
      rcases hm : rwLoop flags
          (contigSegs areas iova (iova + (length - 1))).1 mem buf 0 with
        ⟨mem', buf', e'⟩
      rcases hp : pinLoop (iova + (length - 1)) flags
          (contigSegs areas iova (iova + (length - 1))).1 st [] with
        ⟨st', pgs', ep'⟩
      rcases rwLoop_characterize flags
          (contigSegs areas iova (iova + (length - 1))).1 mem buf 0 with
        ⟨hallR, heqR⟩ | ⟨preR, sR, restR, hsplitR, hpreR, hfailR, heqR⟩ <;>
        rcases pinLoop_characterize (iova + (length - 1)) flags
            (contigSegs areas iova (iova + (length - 1))).1 st [] with
          ⟨hallP, heqP⟩ | ⟨preP, sP, restP, hsplitP, hpreP, hfailP, heqP⟩
      · rw [hm] at heqR
        dsimp only at heqR
        subst heqR
        rw [hp] at heqP
        rw [Prod.mk.injEq, Prod.mk.injEq] at heqP
        obtain ⟨-, -, hep⟩ := heqP
        subst hep
        dsimp only
        by_cases hdone :
            (contigSegs areas iova (iova + (length - 1))).2.1 = true
        · rw [if_pos hdone, if_pos hdone]
        · rw [if_neg hdone, if_neg hdone]
      · exact absurd
          ⟨(hallR sP (by rw [hsplitP]; simp)).1,
            hal sP (by rw [hsplitP]; simp),
            (hallR sP (by rw [hsplitP]; simp)).2⟩ hfailP
      · exact absurd
          ⟨(hallP sR (by rw [hsplitR]; simp)).1,
            (hallP sR (by rw [hsplitR]; simp)).2.2⟩ hfailR
      · have hfailP' : ¬ segPassRw flags sP := by
          intro hc
          exact hfailP ⟨hc.1, hal sP (by rw [hsplitP]; simp), hc.2⟩
        obtain ⟨hpp, hss⟩ := first_split_unique preR
          (contigSegs areas iova (iova + (length - 1))).1 sR restR
          preP sP restP hsplitR hsplitP hpreR hfailR
          (fun t ht => ⟨(hpreP t ht).1, (hpreP t ht).2.2⟩) hfailP'
        rw [hm] at heqR
        dsimp only at heqR
        subst heqR
        rw [hp] at heqP
        rw [Prod.mk.injEq, Prod.mk.injEq] at heqP
        obtain ⟨-, -, hep⟩ := heqP
        subst hep
        dsimp only
        have herr : segErrRw flags sR = segErr (iova + (length - 1)) flags sP := by
          rw [hss]
          unfold segErrRw segErr
          by_cases hprev : sP.area.prevent_access = true
          · rw [if_pos hprev, if_pos (Or.inl hprev)]
          · rw [if_neg hprev, if_neg ?_]
            intro hc
            rcases hc with hc | hc
            · exact hprev hc
            · rw [hal sP (by rw [hsplitP]; simp)] at hc
              simp at hc
        rw [herr]

lemma unpin_after_pin (areas : List IoptArea) (st : AccState)
    (iova length flags : Nat)
    (he : (iommufd_access_pin_pages areas st iova length flags).2.2 = none) :
    iommufd_access_unpin_pages areas
      (iommufd_access_pin_pages areas st iova length flags).1 iova length =
      (st, false) := by
  by_cases h0 : length = 0
  · exfalso
    unfold iommufd_access_pin_pages at he
    rw [if_pos h0] at he
    simp at he
  · by_cases hov : ULONG_MAX < iova + (length - 1)
    · exfalso
      unfold iommufd_access_pin_pages at he
      rw [if_neg h0, if_pos hov] at he
      simp at he
    · obtain ⟨hdone, hall, hst, hpgs⟩ :=
        pin_pages_success areas st iova length flags h0 hov he
      rw [hst]
      unfold iommufd_access_unpin_pages
      rw [if_neg (by simp [h0, hov])]
      dsimp only
      rw [removeLoop_addAll, hdone]
      simp

/-! ## No pin can begin on a draining range -/

lemma pin_err_of_prevent (areas : List IoptArea) (st : AccState)
    (iova length flags : Nat) (a : IoptArea) (p : Nat)
    (hdis : areasDisjoint areas) (ha : a ∈ areas)
    (hprev : a.prevent_access = true)
    (hp1 : iova ≤ p) (hp2 : p ≤ iova + (length - 1))
    (hp3 : a.iova_start ≤ p) (hp4 : p ≤ a.iova_last) :
    (iommufd_access_pin_pages areas st iova length flags).2.2 ≠ none := by
  intro hnone
  by_cases h0 : length = 0
  · unfold iommufd_access_pin_pages at hnone
    rw [if_pos h0] at hnone
    simp at hnone
  · by_cases hov : ULONG_MAX < iova + (length - 1)
    · unfold iommufd_access_pin_pages at hnone
      rw [if_neg h0, if_pos hov] at hnone
      simp at hnone
    · obtain ⟨hdone, hall, -, -⟩ :=
        pin_pages_success areas st iova length flags h0 hov hnone
      obtain ⟨s, hs, hc1, hc2⟩ :=
        contigWalkF_covers areas (iova + (length - 1))
          ((iova + (length - 1)) + 1 - iova) iova true hdone p hp1 hp2
      obtain ⟨hmem, hs1, hs2, -, hs4⟩ :=
        contigWalkF_sound areas (iova + (length - 1))
          ((iova + (length - 1)) + 1 - iova) iova true s hs
      have hpa : s.area.iova_start ≤ p ∧ p ≤ s.area.iova_last := by
        constructor
        · omega
        · have : s.lastIova ≤ s.area.iova_last := by
            rw [hs4]; exact min_le_right _ _
          omega
      have hsa : s.area = a := by
        by_contra hne
        have hsym : Symmetric (fun x y : IoptArea =>
            x.iova_last < y.iova_start ∨ y.iova_last < x.iova_start) := by
          intro x y hxy
          rcases hxy with h | h
          · exact Or.inr h
          · exact Or.inl h
        have hdj := List.Pairwise.forall hsym hdis hmem ha hne
        rcases hdj with h | h <;> omega
      obtain ⟨hpf, -, -⟩ := hall s hs
      rw [hsa, hprev] at hpf
      simp at hpf

lemma rw_err_of_prevent (areas : List IoptArea) (st : AccState) (mem : Mem)
    (buf : Buf) (iova length flags : Nat) (a : IoptArea) (p : Nat)
    (hdis : areasDisjoint areas) (ha : a ∈ areas)
    (hprev : a.prevent_access = true)
    (hp1 : iova ≤ p) (hp2 : p ≤ iova + (length - 1))
    (hp3 : a.iova_start ≤ p) (hp4 : p ≤ a.iova_last) :
    (iommufd_access_rw areas st mem buf iova length flags).2.2.2 ≠ none := by
  intro hnone
  by_cases h0 : length = 0
  · unfold iommufd_access_rw at hnone
    rw [if_pos h0] at hnone
    simp at hnone
  · by_cases hov : ULONG_MAX < iova + (length - 1)
    · unfold iommufd_access_rw at hnone
      rw [if_neg h0, if_pos hov] at hnone
      simp at hnone
    · obtain ⟨hdone, hall⟩ :=
        (rw_success_iff areas st mem buf iova length flags h0 hov).1 hnone
      obtain ⟨s, hs, hc1, hc2⟩ :=
        contigWalkF_covers areas (iova + (length - 1))
          ((iova + (length - 1)) + 1 - iova) iova true hdone p hp1 hp2
      obtain ⟨hmem, hs1, hs2, -, hs4⟩ :=
        contigWalkF_sound areas (iova + (length - 1))
          ((iova + (length - 1)) + 1 - iova) iova true s hs
      have hpa : s.area.iova_start ≤ p ∧ p ≤ s.area.iova_last := by
        constructor
        · omega
        · have : s.lastIova ≤ s.area.iova_last := by
            rw [hs4]; exact min_le_right _ _
          omega
      have hsa : s.area = a := by
        by_contra hne
        have hsym : Symmetric (fun x y : IoptArea =>
            x.iova_last < y.iova_start ∨ y.iova_last < x.iova_start) := by
          intro x y hxy
          rcases hxy with h | h
          · exact Or.inr h
          · exact Or.inl h
        have hdj := List.Pairwise.forall hsym hdis hmem ha hne
        rcases hdj with h | h <;> omega
      obtain ⟨hpf, -⟩ := hall s hs
      rw [hsa, hprev] at hpf
      simp at hpf


/-! ## Lemmas about hardware page table attach -/

namespace Attach

lemma filter_reserved_cancel (res : Multiset (Nat × Nat × Nat)) (dev : Nat)
    (regions : List (Nat × Nat)) (hresv : ∀ r ∈ res, r.1 ≠ dev) :
    Multiset.filter (fun r => r.1 ≠ dev)
      (res + ((regions.map (fun r => (dev, r.1, r.2)) : List (Nat × Nat × Nat)) :
        Multiset (Nat × Nat × Nat))) = res := by
  rw [Multiset.filter_add]
  have h1 : Multiset.filter (fun r => r.1 ≠ dev) res = res :=
    Multiset.filter_eq_self.2 hresv
  have h2 : Multiset.filter (fun r => r.1 ≠ dev)
      ((regions.map (fun r => (dev, r.1, r.2)) : List (Nat × Nat × Nat)) :
        Multiset (Nat × Nat × Nat)) = 0 := by
    rw [Multiset.filter_eq_nil]
    intro x hx
    rw [Multiset.mem_coe] at hx
    obtain ⟨r, -, hr⟩ := List.mem_map.1 hx
    rw [← hr]
    simp
  rw [h1, h2, add_zero]

lemma erase_append_singleton : ∀ (l : List Nat) (dev : Nat), dev ∉ l →
    (l ++ [dev]).erase dev = l := by
  intro l dev h
  induction l with
  | nil => simp
  | cons x l ih =>
    rw [List.cons_append, List.erase_cons]
    rw [if_neg (by simp at h ⊢; omega)]
    rw [ih (by simp at h; exact h.2)]

lemma attach_cases (st : St) (hwptId dev : Nat) (enforce_cc ccOk : Bool)
    (regions : List (Nat × Nat)) (resvOk msiOk attachGroupOk : Bool)
    (hresv : ∀ r ∈ st.reserved, r.1 ≠ dev) :
    (∀ e, (iommufd_hw_pagetable_attach st hwptId dev enforce_cc ccOk regions
        resvOk msiOk attachGroupOk).2 = some e →
      (iommufd_hw_pagetable_attach st hwptId dev enforce_cc ccOk regions
        resvOk msiOk attachGroupOk).1 = st) ∧
    ((iommufd_hw_pagetable_attach st hwptId dev enforce_cc ccOk regions
        resvOk msiOk attachGroupOk).2 = none →
      (iommufd_hw_pagetable_attach st hwptId dev enforce_cc ccOk regions
        resvOk msiOk attachGroupOk).1 =
        { st with
            reserved := st.reserved +
              ((regions.map (fun r => (dev, r.1, r.2)) : List (Nat × Nat × Nat)) :
                Multiset (Nat × Nat × Nat))
            device_list := st.device_list ++ [dev]
            igroup_hwpt :=
              if st.device_list = [] then some hwptId else st.igroup_hwpt }) := by
  unfold iommufd_hw_pagetable_attach iopt_table_enforce_dev_resv_regions
  by_cases h1 : st.igroup_hwpt ≠ none ∧ st.igroup_hwpt ≠ some hwptId
  · rw [if_pos h1]
    exact ⟨fun e _ => rfl, fun hc => by simp at hc⟩
  · rw [if_neg h1]
    by_cases h2 : enforce_cc = true ∧ ¬ ccOk = true
    · rw [if_pos h2]
      exact ⟨fun e _ => rfl, fun hc => by simp at hc⟩
    · rw [if_neg h2]
      by_cases h3 : resvOk = true
      · rw [if_pos h3]
        dsimp only
        by_cases h4 : st.device_list = []
        · rw [if_pos h4]
          by_cases h5 : msiOk = true
          · rw [if_neg (by simp [h5])]
            by_cases h6 : attachGroupOk = true
            · rw [if_neg (by simp [h6])]
              refine ⟨fun e hc => by simp at hc, fun _ => ?_⟩
              rw [if_pos h4]
            · rw [if_pos (by simp [h6])]
              refine ⟨fun e _ => ?_, fun hc => by simp at hc⟩
              obtain ⟨g, dl, res, de, doms, hl, ar⟩ := st
              unfold iopt_remove_reserved_iova
              dsimp only
              rw [St.mk.injEq]
              refine ⟨rfl, rfl, ?_, rfl, rfl, rfl, rfl⟩
              exact filter_reserved_cancel res dev regions hresv
          · rw [if_pos (by simp [h5])]
            refine ⟨fun e _ => ?_, fun hc => by simp at hc⟩
            obtain ⟨g, dl, res, de, doms, hl, ar⟩ := st
            unfold iopt_remove_reserved_iova
            dsimp only
            rw [St.mk.injEq]
            refine ⟨rfl, rfl, ?_, rfl, rfl, rfl, rfl⟩
            exact filter_reserved_cancel res dev regions hresv
        · rw [if_neg h4]
          refine ⟨fun e hc => by simp at hc, fun _ => ?_⟩
          rw [if_neg h4]
      · rw [if_neg h3]
        dsimp only
        exact ⟨fun e _ => rfl, fun hc => by simp at hc⟩

lemma add_domain_fail_state (st : St) (dom k : Nat)
    (hk : k < st.areas.length) :
    iopt_table_add_domain st dom (some k) = (st, some .ENOMEM) := by
  unfold iopt_table_add_domain
  dsimp only
  rw [if_pos hk]
  rw [Prod.mk.injEq]
  refine ⟨?_, rfl⟩
  obtain ⟨g, dl, res, de, doms, hl, ar⟩ := st
  dsimp only
  rw [St.mk.injEq]
  refine ⟨rfl, rfl, rfl, ?_, rfl, rfl, rfl⟩
  exact foldl_erase_cancel ((ar.take k).map (fun a => (dom, a))) de

lemma add_domain_ok_state (st : St) (dom : Nat) (fillFail : Option Nat)
    (h : ∀ k, fillFail = some k → ¬ k < st.areas.length) :
    iopt_table_add_domain st dom fillFail =
      ({ st with
          domEntries := st.domEntries +
            ((st.areas.map (fun a => (dom, a)) : List (Nat × Nat)) :
              Multiset (Nat × Nat))
          domains := st.domains ++ [dom] }, none) := by
  unfold iopt_table_add_domain
  cases fillFail with
  | none => rfl
  | some k =>
    dsimp only
    rw [if_neg (h k rfl)]

lemma detach_attached (st : St) (hwptId dev : Nat)
    (regions : List (Nat × Nat)) (hdev : dev ∉ st.device_list)
    (hresv : ∀ r ∈ st.reserved, r.1 ≠ dev)
    (hgrp : st.device_list = [] → st.igroup_hwpt = none) :
    iommufd_hw_pagetable_detach
      { st with
          reserved := st.reserved +
            ((regions.map (fun r => (dev, r.1, r.2)) : List (Nat × Nat × Nat)) :
              Multiset (Nat × Nat × Nat))
          device_list := st.device_list ++ [dev]
          igroup_hwpt :=
            if st.device_list = [] then some hwptId else st.igroup_hwpt }
      dev = st := by
  obtain ⟨g, dl, res, de, doms, hl, ar⟩ := st
  unfold iommufd_hw_pagetable_detach iopt_remove_reserved_iova
  dsimp only
  rw [erase_append_singleton dl dev hdev]
  by_cases hdl : dl = []
  · rw [if_pos hdl]
    dsimp only
    rw [St.mk.injEq]
    have hg : g = none := hgrp hdl
    refine ⟨hg.symm, rfl, ?_, rfl, rfl, rfl, rfl⟩
    exact filter_reserved_cancel res dev regions hresv
  · rw [if_neg hdl]
    dsimp only
    rw [St.mk.injEq]
    refine ⟨?_, rfl, ?_, rfl, rfl, rfl, rfl⟩
    · rw [if_neg hdl]
    · exact filter_reserved_cancel res dev regions hresv

end Attach

/-! ## Claim theorems: the in-kernel access interface -/

/-- C1 (amended): for every in-kernel access and every (iova, length)
request, iommufd_access_pin_pages fails with EINVAL (the spec's
InvalidRange) when the length is zero; with EOVERFLOW (Overflow) when
iova + length - 1 overflows unsigned long; with EINVAL when the first
offending segment is misaligned or — the amendment — lies in an Area whose
prevent_access flag is set; with EPERM (PermissionDenied) when the first
offending segment fails the direction check; with ENOENT (InvalidRange:
not fully covered) when every visited segment passes but the contiguous
walk does not cover the range; and succeeds exactly when the range is
fully covered by contiguous Areas whose segments are page aligned, not
draining and permit the direction, in which case the page list of the
covered range is returned. -/
theorem c1_pin_pages_classification (areas : List IoptArea) (st : AccState)
    (iova length flags : Nat) :
    (length = 0 →
      (iommufd_access_pin_pages areas st iova length flags).2.2 =
        some .EINVAL) ∧
    (¬ length = 0 → ULONG_MAX < iova + (length - 1) →
      (iommufd_access_pin_pages areas st iova length flags).2.2 =
        some .EOVERFLOW) ∧
    (¬ length = 0 → ¬ ULONG_MAX < iova + (length - 1) →
      ((iommufd_access_pin_pages areas st iova length flags).2.2 = none ↔
        ((contigSegs areas iova (iova + (length - 1))).2.1 = true ∧
          ∀ s ∈ (contigSegs areas iova (iova + (length - 1))).1,
            segPass (iova + (length - 1)) flags s)) ∧
      ((iommufd_access_pin_pages areas st iova length flags).2.2 = none →
        (iommufd_access_pin_pages areas st iova length flags).2.1 =
          ((contigSegs areas iova
              (iova + (length - 1))).1.map segPages).join) ∧
      (∀ pre s rest,
        (contigSegs areas iova (iova + (length - 1))).1 =
          pre ++ s :: rest →
        (∀ t ∈ pre, segPass (iova + (length - 1)) flags t) →
        ¬ segPass (iova + (length - 1)) flags s →
        (iommufd_access_pin_pages areas st iova length flags).2.2 =
          some (segErr (iova + (length - 1)) flags s)) ∧
      ((∀ s ∈ (contigSegs areas iova (iova + (length - 1))).1,
          segPass (iova + (length - 1)) flags s) →
        (contigSegs areas iova (iova + (length - 1))).2.1 = false →
        (iommufd_access_pin_pages areas st iova length flags).2.2 =
          some .ENOENT)) := by
  refine ⟨?_, ?_, ?_⟩
  · intro h0
    unfold iommufd_access_pin_pages
    rw [if_pos h0]
  · intro h0 hov
    unfold iommufd_access_pin_pages
    rw [if_neg h0, if_pos hov]
  · intro h0 hov
    refine ⟨⟨?_, ?_⟩, ?_, ?_, ?_⟩
    · intro he
      obtain ⟨hdone, hall, -, -⟩ :=
        pin_pages_success areas st iova length flags h0 hov he
      exact ⟨hdone, hall⟩
    · intro ⟨hdone, hall⟩
      exact pin_pages_success_of areas st iova length flags h0 hov hdone hall
    · intro he
      exact (pin_pages_success areas st iova length flags h0 hov he).2.2.2
    · intro pre s rest hsplit hpre hfail
      exact pin_pages_err_first areas st iova length flags h0 hov
        pre s rest hsplit hpre hfail
    · intro hall hnd
      exact pin_pages_enoent areas st iova length flags h0 hov hall hnd

/-- Witness for C1: a concrete aligned read over one readable Area
succeeds, by the success direction of the classification. -/
theorem c1_pin_pages_classification_witness :
    (iommufd_access_pin_pages [⟨1, 10, 4096, 8191, 0, 3, false⟩] 0
      4096 4096 0).2.2 = none :=
  (((c1_pin_pages_classification [⟨1, 10, 4096, 8191, 0, 3, false⟩] 0
      4096 4096 0).2.2 (by decide) (by decide)).1).2 ⟨by decide, by decide⟩

/-- Counterexample for C1 as frozen: a single Area fully covering the
aligned request with read permission granted — none of the claim's failure
conditions (zero length, overflow, misalignment, missing coverage,
insufficient permission) holds — yet pin_pages fails with EINVAL because
the Area's prevent_access flag is set. -/
theorem c1_counterexample :
    (¬ (4096 : Nat) = 0) ∧
    ¬ ULONG_MAX < 4096 + (4096 - 1) ∧
    (contigSegs [⟨1, 10, 4096, 8191, 0, 3, true⟩] 4096
      (4096 + (4096 - 1))).2.1 = true ∧
    (∀ s ∈ (contigSegs [⟨1, 10, 4096, 8191, 0, 3, true⟩] 4096
        (4096 + (4096 - 1))).1,
      iopt_area_contig_is_aligned s (4096 + (4096 - 1)) = true ∧
      check_area_prot s.area 0 = true) ∧
    (iommufd_access_pin_pages [⟨1, 10, 4096, 8191, 0, 3, true⟩] 0
      4096 4096 0).2.2 = some .EINVAL := by
  decide

/-- C2: whenever iommufd_access_pin_pages returns an error — after having
pinned any prefix of the covered Areas — the returned access state equals
the pre-call state: every access reference added during the call was
removed before the error return. -/
theorem c2_pin_pages_rollback (areas : List IoptArea) (st : AccState)
    (iova length flags : Nat) (e : Err)
    (he : (iommufd_access_pin_pages areas st iova length flags).2.2 =
      some e) :
    (iommufd_access_pin_pages areas st iova length flags).1 = st :=
  pin_pages_err_state areas st iova length flags e he

/-- Witness for C2: a write spanning a writable Area and a read-only Area
fails with EPERM after pinning the first Area, and the state returns to
empty. -/
theorem c2_pin_pages_rollback_witness :
    (iommufd_access_pin_pages
        [⟨1, 10, 4096, 8191, 0, 3, false⟩, ⟨2, 20, 8192, 12287, 0, 1, false⟩]
        0 4096 8192 1).2.2 = some .EPERM ∧
    (iommufd_access_pin_pages
        [⟨1, 10, 4096, 8191, 0, 3, false⟩, ⟨2, 20, 8192, 12287, 0, 1, false⟩]
        0 4096 8192 1).1 = 0 :=
  ⟨by decide,
    c2_pin_pages_rollback
      [⟨1, 10, 4096, 8191, 0, 3, false⟩, ⟨2, 20, 8192, 12287, 0, 1, false⟩]
      0 4096 8192 1 .EPERM (by decide)⟩

/-- C3: when an Area has prevent_access set (Draining), every pin_pages
call and every read_write call whose requested IOVA range intersects that
Area fails, and adds no access: the access state is returned unchanged (in
particular no new access over the draining Area). -/
theorem c3_draining_blocks_new_pins (areas : List IoptArea) (st : AccState)
    (mem : Mem) (buf : Buf) (iova length flags : Nat) (a : IoptArea)
    (p : Nat) (hdis : areasDisjoint areas) (ha : a ∈ areas)
    (hprev : a.prevent_access = true)
    (hp1 : iova ≤ p) (hp2 : p ≤ iova + (length - 1))
    (hp3 : a.iova_start ≤ p) (hp4 : p ≤ a.iova_last) :
    ((iommufd_access_pin_pages areas st iova length flags).2.2 ≠ none ∧
      (iommufd_access_pin_pages areas st iova length flags).1 = st) ∧
    ((iommufd_access_rw areas st mem buf iova length flags).2.2.2 ≠ none ∧
      (iommufd_access_rw areas st mem buf iova length flags).1 = st) := by
  have hpin := pin_err_of_prevent areas st iova length flags a p hdis ha
    hprev hp1 hp2 hp3 hp4
  have hrw := rw_err_of_prevent areas st mem buf iova length flags a p hdis
    ha hprev hp1 hp2 hp3 hp4
  refine ⟨⟨hpin, ?_⟩, ⟨hrw, rw_state areas st mem buf iova length flags⟩⟩
  rcases he : (iommufd_access_pin_pages areas st iova length flags).2.2 with
    - | e
  · exact absurd he hpin
  · exact pin_pages_err_state areas st iova length flags e he

/-- Witness for C3: a draining Area intersecting the request makes both
pin_pages and read_write fail with the state unchanged. -/
theorem c3_draining_blocks_new_pins_witness :
    ((iommufd_access_pin_pages [⟨1, 10, 4096, 8191, 0, 3, true⟩] 0
        4096 4096 0).2.2 ≠ none ∧
      (iommufd_access_pin_pages [⟨1, 10, 4096, 8191, 0, 3, true⟩] 0
        4096 4096 0).1 = 0) ∧
    ((iommufd_access_rw [⟨1, 10, 4096, 8191, 0, 3, true⟩] 0
        (fun _ _ => 0) (fun _ => 0) 4096 4096 0).2.2.2 ≠ none ∧
      (iommufd_access_rw [⟨1, 10, 4096, 8191, 0, 3, true⟩] 0
        (fun _ _ => 0) (fun _ => 0) 4096 4096 0).1 = 0) :=
  c3_draining_blocks_new_pins [⟨1, 10, 4096, 8191, 0, 3, true⟩] 0
    (fun _ _ => 0) (fun _ => 0) 4096 4096 0
    ⟨1, 10, 4096, 8191, 0, 3, true⟩ 4096
    (by decide) (by decide) (by decide) (by decide) (by decide)
    (by decide) (by decide)

/-- C6: an unpin whose (iova, length) exactly matches a prior successful
pin removes exactly the accesses that pin added, returning the pre-pin
state with no assertion; an unpin with a zero length or an overflowing
range fires the WARN_ON assertion and returns — with no state change and
no recoverable error value, the function having no error return at all —
and an unpin over a range not fully covered by contiguous areas also fires
the assertion. -/
theorem c6_unpin_exact_inverse (areas : List IoptArea) (st : AccState)
    (iova length flags iova2 length2 : Nat) :
    ((iommufd_access_pin_pages areas st iova length flags).2.2 = none →
      iommufd_access_unpin_pages areas
        (iommufd_access_pin_pages areas st iova length flags).1 iova
        length = (st, false)) ∧
    (length2 = 0 ∨ ULONG_MAX < iova2 + (length2 - 1) →
      iommufd_access_unpin_pages areas st iova2 length2 = (st, true)) ∧
    (¬ length2 = 0 → ¬ ULONG_MAX < iova2 + (length2 - 1) →
      (contigSegs areas iova2 (iova2 + (length2 - 1))).2.1 = false →
      (iommufd_access_unpin_pages areas st iova2 length2).2 = true) := by
  refine ⟨?_, ?_, ?_⟩
  · intro he
    exact unpin_after_pin areas st iova length flags he
  · intro hc
    unfold iommufd_access_unpin_pages
    rw [if_pos ?_]
    rcases hc with hc | hc
    · simp [hc]
    · simp [hc]
  · intro h0 hov hnd
    unfold iommufd_access_unpin_pages
    rw [if_neg (by simp [h0, hov])]
    dsimp only
    rw [hnd]
    rfl

/-- Witness for C6: pin then unpin of the same two-Area range restores the
empty state without a warning. -/
theorem c6_unpin_exact_inverse_witness :
    iommufd_access_unpin_pages
      [⟨1, 10, 4096, 8191, 0, 3, false⟩, ⟨2, 20, 8192, 12287, 0, 3, false⟩]
      (iommufd_access_pin_pages
        [⟨1, 10, 4096, 8191, 0, 3, false⟩, ⟨2, 20, 8192, 12287, 0, 3, false⟩]
        0 4096 8192 0).1 4096 8192 = (0, false) :=
  (c6_unpin_exact_inverse
    [⟨1, 10, 4096, 8191, 0, 3, false⟩, ⟨2, 20, 8192, 12287, 0, 3, false⟩]
    0 4096 8192 0 0 0).1 (by decide)

/-- C7: iommufd_access_rw never touches the access state (no persistent
pin), fails with EINVAL on zero length and EOVERFLOW on range overflow
exactly like pin_pages, succeeds exactly when the range is fully covered
by contiguous non-draining Areas permitting the direction, and — on any
range whose visited segments are page aligned, so that pin_pages's extra
alignment check cannot fire — returns exactly the same error class as
pin_pages. -/
theorem c7_rw_same_checks_transient (areas : List IoptArea) (st : AccState)
    (mem : Mem) (buf : Buf) (iova length flags : Nat) :
    (iommufd_access_rw areas st mem buf iova length flags).1 = st ∧
    (length = 0 →
      (iommufd_access_rw areas st mem buf iova length flags).2.2.2 =
        some .EINVAL) ∧
    (¬ length = 0 → ULONG_MAX < iova + (length - 1) →
      (iommufd_access_rw areas st mem buf iova length flags).2.2.2 =
        some .EOVERFLOW) ∧
    (¬ length = 0 → ¬ ULONG_MAX < iova + (length - 1) →
      ((iommufd_access_rw areas st mem buf iova length flags).2.2.2 =
          none ↔
        ((contigSegs areas iova (iova + (length - 1))).2.1 = true ∧
          ∀ s ∈ (contigSegs areas iova (iova + (length - 1))).1,
            segPassRw flags s))) ∧
    ((∀ s ∈ (contigSegs areas iova (iova + (length - 1))).1,
        iopt_area_contig_is_aligned s (iova + (length - 1)) = true) →
      (iommufd_access_rw areas st mem buf iova length flags).2.2.2 =
        (iommufd_access_pin_pages areas st iova length flags).2.2) := by
  refine ⟨rw_state areas st mem buf iova length flags, ?_, ?_, ?_, ?_⟩
  · intro h0
    unfold iommufd_access_rw
    rw [if_pos h0]
  · intro h0 hov
    unfold iommufd_access_rw
    rw [if_neg h0, if_pos hov]
  · intro h0 hov
    exact rw_success_iff areas st mem buf iova length flags h0 hov
  · intro hal
    exact rw_err_eq_pin_err areas st mem buf iova length flags hal

/-- Witness for C7: on an aligned two-Area write where the second Area is
read-only, read_write reports exactly pin_pages's EPERM. -/
theorem c7_rw_same_checks_transient_witness :
    (iommufd_access_rw
        [⟨1, 10, 4096, 8191, 0, 3, false⟩, ⟨2, 20, 8192, 12287, 0, 1, false⟩]
        0 (fun _ _ => 0) (fun _ => 0) 4096 8192 1).2.2.2 =
      (iommufd_access_pin_pages
        [⟨1, 10, 4096, 8191, 0, 3, false⟩, ⟨2, 20, 8192, 12287, 0, 1, false⟩]
        0 4096 8192 1).2.2 :=
  (c7_rw_same_checks_transient
    [⟨1, 10, 4096, 8191, 0, 3, false⟩, ⟨2, 20, 8192, 12287, 0, 1, false⟩]
    0 (fun _ _ => 0) (fun _ => 0) 4096 8192 1).2.2.2.2 (by decide)

/-- C9: read_write is not atomic on failure.  Concretely: a write over two
Areas where the second is read-only returns EPERM, yet all 4096 bytes
belonging to the first Area have already been copied into its Pages Store
and are not undone, while the second Area's store is untouched — the
observable result on error is a prefix of the requested transfer. -/
theorem c9_rw_partial_copy_on_error :
    (iommufd_access_rw
        [⟨1, 10, 4096, 8191, 0, 3, false⟩, ⟨2, 20, 8192, 12287, 0, 1, false⟩]
        0 (fun _ _ => 0) (fun i => (i + 7) % 256) 4096 8192 1).2.2.2 =
      some .EPERM ∧
    (∀ o, o < 4096 →
      (iommufd_access_rw
          [⟨1, 10, 4096, 8191, 0, 3, false⟩,
            ⟨2, 20, 8192, 12287, 0, 1, false⟩]
          0 (fun _ _ => 0) (fun i => (i + 7) % 256) 4096 8192 1).2.1 10 o =
        (o + 7) % 256) ∧
    (∀ o, o < 4096 →
      (iommufd_access_rw
          [⟨1, 10, 4096, 8191, 0, 3, false⟩,
            ⟨2, 20, 8192, 12287, 0, 1, false⟩]
          0 (fun _ _ => 0) (fun i => (i + 7) % 256) 4096 8192 1).2.1 20 o =
        0) := by
  have hmem : (iommufd_access_rw
      [⟨1, 10, 4096, 8191, 0, 3, false⟩, ⟨2, 20, 8192, 12287, 0, 1, false⟩]
      0 (fun _ _ => 0) (fun i => (i + 7) % 256) 4096 8192 1).2.1 =
      (iopt_pages_rw_access (fun _ _ => 0) (fun i => (i + 7) % 256) 10 0 0
        4096 1).1 := rfl
  refine ⟨by decide, ?_, ?_⟩
  · intro o ho
    rw [hmem]
    unfold iopt_pages_rw_access
    rw [if_pos (by decide)]
    dsimp only
    rw [if_pos (by omega)]
    simp
  · intro o ho
    rw [hmem]
    unfold iopt_pages_rw_access
    rw [if_pos (by decide)]
    dsimp only
    rw [if_neg (by omega)]


/-- C5: an attach of a hardware page table that fails at any step rolls
back completely before the error is reported: the device's reserved IOVA
regions are removed, no binding is added to the group or to the ioas's
hwpt list, the table's areas, domains and existing entries are unchanged —
the whole state equals the pre-call state — and the new domain holds zero
entries.  Stated both for iommufd_hw_pagetable_attach alone and for the
attach-and-link flow of iommufd_hw_pagetable_alloc, whose mid-walk
fill_domain failure (fillFail) unfills the already filled areas and whose
link failure detaches the just-attached device. -/
theorem c5_attach_rollback (st : Attach.St) (hwptId dom dev : Nat)
    (enforce_cc ccOk : Bool) (regions : List (Nat × Nat))
    (resvOk msiOk attachGroupOk immediate_attach : Bool)
    (fillFail : Option Nat)
    (hdev : dev ∉ st.device_list)
    (hresv : ∀ r ∈ st.reserved, r.1 ≠ dev)
    (hgrp : st.device_list = [] → st.igroup_hwpt = none)
    (hdom : ∀ en ∈ st.domEntries, en.1 ≠ dom) :
    (∀ e, (Attach.iommufd_hw_pagetable_attach st hwptId dev enforce_cc ccOk
        regions resvOk msiOk attachGroupOk).2 = some e →
      (Attach.iommufd_hw_pagetable_attach st hwptId dev enforce_cc ccOk
        regions resvOk msiOk attachGroupOk).1 = st) ∧
    (∀ e, (Attach.iommufd_hw_pagetable_alloc_flow st hwptId dom dev
        enforce_cc ccOk regions resvOk msiOk attachGroupOk immediate_attach
        fillFail).2 = some e →
      (Attach.iommufd_hw_pagetable_alloc_flow st hwptId dom dev enforce_cc
        ccOk regions resvOk msiOk attachGroupOk immediate_attach
        fillFail).1 = st ∧
      ∀ en ∈ (Attach.iommufd_hw_pagetable_alloc_flow st hwptId dom dev
          enforce_cc ccOk regions resvOk msiOk attachGroupOk
          immediate_attach fillFail).1.domEntries, en.1 ≠ dom) := by
  have hac := Attach.attach_cases st hwptId dev enforce_cc ccOk regions
    resvOk msiOk attachGroupOk hresv
  refine ⟨hac.1, ?_⟩
  intro e he
  suffices h : (Attach.iommufd_hw_pagetable_alloc_flow st hwptId dom dev
      enforce_cc ccOk regions resvOk msiOk attachGroupOk immediate_attach
      fillFail).1 = st by
    refine ⟨h, ?_⟩
    rw [h]
    exact hdom
  unfold Attach.iommufd_hw_pagetable_alloc_flow at he ⊢
  by_cases h1 : enforce_cc = true ∧ ¬ ccOk = true
  · rw [if_pos h1]
  · rw [if_neg h1] at he ⊢
    by_cases him : immediate_attach = true
    · rw [if_pos him] at he ⊢
      rcases hA : Attach.iommufd_hw_pagetable_attach st hwptId dev
          enforce_cc ccOk regions resvOk msiOk attachGroupOk with ⟨st1, eA⟩
      rw [hA] at he
      cases eA with
      | some eA2 =>
        dsimp only at he ⊢
        have h2 := hac.1 eA2 (by rw [hA])
        rw [hA] at h2
        exact h2
      | none =>
        have hok := hac.2 (by rw [hA])
        rw [hA] at hok
        dsimp only at he hok ⊢
        unfold Attach.iommufd_hw_pagetable_link_ioas at he ⊢
        rw [if_neg (by simp)] at he ⊢
        cases fillFail with
        | none =>
          rw [Attach.add_domain_ok_state st1 dom none
            (by intro k hk; simp at hk)] at he
          dsimp only at he
          simp at he
        | some k =>
          by_cases hk : k < st1.areas.length
          · rw [Attach.add_domain_fail_state st1 dom k hk] at he ⊢
            dsimp only at he ⊢
            rw [if_pos him]
            rw [hok]
            exact Attach.detach_attached st hwptId dev regions hdev hresv
              hgrp
          · rw [Attach.add_domain_ok_state st1 dom (some k)
              (by intro k2 hk2; rw [Option.some.injEq] at hk2;
                  rw [← hk2]; exact hk)] at he
            dsimp only at he
            simp at he
    · rw [if_neg him] at he ⊢
      dsimp only at he ⊢
      unfold Attach.iommufd_hw_pagetable_link_ioas at he ⊢
      rw [if_neg (by simp)] at he ⊢
      cases fillFail with
      | none =>
        rw [Attach.add_domain_ok_state st dom none
          (by intro k hk; simp at hk)] at he
        dsimp only at he
        simp at he
      | some k =>
        by_cases hk : k < st.areas.length
        · rw [Attach.add_domain_fail_state st dom k hk] at he ⊢
          dsimp only at he ⊢
          rw [if_neg him]
        · rw [Attach.add_domain_ok_state st dom (some k)
            (by intro k2 hk2; rw [Option.some.injEq] at hk2;
                rw [← hk2]; exact hk)] at he
          dsimp only at he
          simp at he

/-- Witness for C5: with one existing area and a fill failure at index 0,
the immediate-attach alloc flow reports an error and the state — group,
device list, reserved regions, entries, domains, hwpt list, areas — is
exactly the pre-call state, with no entry for the new domain. -/
theorem c5_attach_rollback_witness :
    (Attach.iommufd_hw_pagetable_alloc_flow
        ⟨none, [], 0, 0, [], [], [7]⟩ 3 4 5 false true [(100, 200)] true
        true true true (some 0)).2 = some .ENOMEM ∧
    (Attach.iommufd_hw_pagetable_alloc_flow
        ⟨none, [], 0, 0, [], [], [7]⟩ 3 4 5 false true [(100, 200)] true
        true true true (some 0)).1 = ⟨none, [], 0, 0, [], [], [7]⟩ :=
  ⟨by decide,
    ((c5_attach_rollback ⟨none, [], 0, 0, [], [], [7]⟩ 3 4 5 false true
        [(100, 200)] true true true true (some 0) (by decide)
        (fun r hr => by simp at hr) (fun _ => rfl)
        (fun en hen => by simp at hen)).2 .ENOMEM (by decide)).1⟩


/-! ## Lemmas about automatic domain selection -/

namespace AutoDomain

lemma auto_all_skipped (attach : Nat → AttachRes) (alloc : Except Err Nat) :
    ∀ cands : List Cand, (∀ c ∈ cands, skipped attach c) →
      iommufd_device_auto_get_domain attach alloc cands = alloc := by
  intro cands
  induction cands with
  | nil =>
    intro _
    unfold iommufd_device_auto_get_domain
    cases alloc with
    | ok i => rfl
    | error e => rfl
  | cons c rest ih =>
    intro hall
    unfold iommufd_device_auto_get_domain
    by_cases h1 : ¬ c.auto_domain = true ∨ ¬ c.lockable = true
    · rw [if_pos h1]
      exact ih (fun x hx => hall x (by simp [hx]))
    · rw [if_neg h1]
      have hsk := hall c (by simp)
      unfold skipped at hsk
      rcases hsk with h | h | h
      · exact absurd (Or.inl h) h1
      · exact absurd (Or.inr h) h1
      · rw [h]
        exact ih (fun x hx => hall x (by simp [hx]))

lemma auto_first_live (attach : Nat → AttachRes) (alloc : Except Err Nat) :
    ∀ (pre : List Cand) (c : Cand) (post : List Cand),
      (∀ p ∈ pre, skipped attach p) → c.auto_domain = true →
      c.lockable = true →
      (attach c.id = .ok →
        iommufd_device_auto_get_domain attach alloc (pre ++ c :: post) =
          .ok c.id) ∧
      (∀ e, attach c.id = .err e →
        iommufd_device_auto_get_domain attach alloc (pre ++ c :: post) =
          .error e) := by
  intro pre
  induction pre with
  | nil =>
    intro c post _ hauto hlock
    constructor
    · intro hok
      rw [List.nil_append]
      unfold iommufd_device_auto_get_domain
      rw [if_neg (by simp [hauto, hlock])]
      rw [hok]
    · intro e herr
      rw [List.nil_append]
      unfold iommufd_device_auto_get_domain
      rw [if_neg (by simp [hauto, hlock])]
      rw [herr]
  | cons p pre' ih =>
    intro c post hpre hauto hlock
    have hstep : iommufd_device_auto_get_domain attach alloc
        ((p :: pre') ++ c :: post) =
        iommufd_device_auto_get_domain attach alloc (pre' ++ c :: post) := by
      rw [List.cons_append]
      simp only [iommufd_device_auto_get_domain]
      have hsk := hpre p (by simp)
      unfold skipped at hsk
      by_cases h1 : ¬ p.auto_domain = true ∨ ¬ p.lockable = true
      · rw [if_pos h1]
      · rw [if_neg h1]
        rcases hsk with h | h | h
        · exact absurd (Or.inl h) h1
        · exact absurd (Or.inr h) h1
        · rw [h]
    rw [hstep]
    exact ih c post (fun x hx => hpre x (by simp [hx])) hauto hlock

end AutoDomain

/-! ## Lemmas about the unmap path -/

lemma get_pos_lt {α : Type} (P : α → Prop) (l1 l2 : List α) (i : Nat)
    (hi : i < (l1 ++ l2).length)
    (hp : P ((l1 ++ l2).get ⟨i, hi⟩)) (hl2 : ∀ x ∈ l2, ¬ P x) :
    i < l1.length := by
  by_contra hc
  push_neg at hc
  have hlen : i - l1.length < l2.length := by
    rw [List.length_append] at hi
    omega
  have hget : (l1 ++ l2).get ⟨i, hi⟩ = l2.get ⟨i - l1.length, hlen⟩ := by
    rw [List.get_eq_getElem, List.get_eq_getElem,
      List.getElem_append_right hc]
  exact hl2 _ (List.get_mem _ _ _) (hget ▸ hp)

lemma get_pos_ge {α : Type} (P : α → Prop) (l1 l2 : List α) (i : Nat)
    (hi : i < (l1 ++ l2).length)
    (hp : P ((l1 ++ l2).get ⟨i, hi⟩)) (hl1 : ∀ x ∈ l1, ¬ P x) :
    l1.length ≤ i := by
  by_contra hc
  push_neg at hc
  have hget : (l1 ++ l2).get ⟨i, hi⟩ = l1.get ⟨i, hc⟩ := by
    rw [List.get_eq_getElem, List.get_eq_getElem,
      List.getElem_append_left hc]
  exact hl1 _ (List.get_mem _ _ _) (hget ▸ hp)

namespace Unmap

lemma unmapArea_notify_first (st : St) (a : IoptArea) :
    ∀ i j (hi : i < (unmapArea st a).2.length)
      (hj : j < (unmapArea st a).2.length),
      isNotify ((unmapArea st a).2.get ⟨i, hi⟩) →
      isTeardown ((unmapArea st a).2.get ⟨j, hj⟩) → i < j := by
  intro i j hi hj hni htj
  have hUT : ∀ x ∈ (st.doms.map (fun d => Ev.unfill d a.id) ++
      [Ev.unpin a.id, Ev.removeArea a.id]), ¬ isNotify x := by
    intro x hx
    rcases List.mem_append.1 hx with hx | hx
    · obtain ⟨d, -, hd⟩ := List.mem_map.1 hx
      rw [← hd]
      simp [isNotify]
    · rcases List.mem_cons.1 hx with hx | hx
      · rw [hx]; simp [isNotify]
      · rcases List.mem_cons.1 hx with hx | hx
        · rw [hx]; simp [isNotify]
        · simp at hx
  have hN : ∀ x ∈ st.accesses.map (fun ac =>
      Ev.notify ac.id a.iova_start (a.iova_last - a.iova_start + 1)),
      ¬ isTeardown x := by
    intro x hx
    obtain ⟨ac, -, hac⟩ := List.mem_map.1 hx
    rw [← hac]
    simp [isTeardown]
  cases i with
  | zero => simp [List.get, isNotify] at hni
  | succ i2 =>
    cases j with
    | zero => simp [List.get, isTeardown] at htj
    | succ j2 =>
      have hni2 : isNotify ((st.accesses.map (fun ac =>
          Ev.notify ac.id a.iova_start (a.iova_last - a.iova_start + 1)) ++
          (st.doms.map (fun d => Ev.unfill d a.id) ++
            [Ev.unpin a.id, Ev.removeArea a.id])).get
          ⟨i2, Nat.lt_of_succ_lt_succ hi⟩) := hni
      have htj2 : isTeardown ((st.accesses.map (fun ac =>
          Ev.notify ac.id a.iova_start (a.iova_last - a.iova_start + 1)) ++
          (st.doms.map (fun d => Ev.unfill d a.id) ++
            [Ev.unpin a.id, Ev.removeArea a.id])).get
          ⟨j2, Nat.lt_of_succ_lt_succ hj⟩) := htj
      have h1 := get_pos_lt isNotify _ _ i2 (Nat.lt_of_succ_lt_succ hi)
        hni2 hUT
      have h2 := get_pos_ge isTeardown _ _ j2 (Nat.lt_of_succ_lt_succ hj)
        htj2 hN
      omega

lemma notify_unmap_drains (st : St) (iova len : Nat) :
    ∀ pn ∈ (iommufd_access_notify_unmap st iova len).1.pins,
      ¬(pn.start ≤ iova + len - 1 ∧ iova ≤ pn.last) := by
  intro pn hpn
  unfold iommufd_access_notify_unmap at hpn
  dsimp only at hpn
  exact (Multiset.mem_filter.1 hpn).2

lemma unmapArea_entries (st : St) (a : IoptArea) :
    (unmapArea st a).1.domEntries =
      st.domEntries.filter
        (fun e => ¬(e.2.1 ≤ a.iova_last ∧ a.iova_start ≤ e.2.2)) := rfl

lemma unmapArea_pins (st : St) (a : IoptArea) :
    (unmapArea st a).1.pins =
      st.pins.filter (fun p =>
        ¬(p.start ≤ a.iova_start + (a.iova_last - a.iova_start + 1) - 1 ∧
          a.iova_start ≤ p.last)) := rfl

lemma unmap_fold_entries (l : List IoptArea) :
    ∀ (acc : St × List Ev) (e : Nat × Nat × Nat),
      e ∈ ((l.foldl (fun acc a =>
          let r := unmapArea acc.1 a
          (r.1, acc.2 ++ r.2)) acc).1).domEntries →
      e ∈ acc.1.domEntries ∧
        ∀ a ∈ l, ¬(e.2.1 ≤ a.iova_last ∧ a.iova_start ≤ e.2.2) := by
  induction l with
  | nil =>
    intro acc e he
    exact ⟨he, by simp⟩
  | cons a l ih =>
    intro acc e he
    rw [List.foldl_cons] at he
    obtain ⟨hmem, hrest⟩ := ih _ e he
    rw [unmapArea_entries] at hmem
    obtain ⟨hmem2, hpred⟩ := Multiset.mem_filter.1 hmem
    refine ⟨hmem2, ?_⟩
    intro b hb
    rcases List.mem_cons.1 hb with hb | hb
    · rw [hb]
      simpa using hpred
    · exact hrest b hb

lemma unmap_fold_pins (l : List IoptArea)
    (hl : ∀ a ∈ l, a.iova_start ≤ a.iova_last) :
    ∀ (acc : St × List Ev) (pn : Pin),
      pn ∈ ((l.foldl (fun acc a =>
          let r := unmapArea acc.1 a
          (r.1, acc.2 ++ r.2)) acc).1).pins →
      pn ∈ acc.1.pins ∧
        ∀ a ∈ l, ¬(pn.start ≤ a.iova_last ∧ a.iova_start ≤ pn.last) := by
  induction l with
  | nil =>
    intro acc pn hpn
    exact ⟨hpn, by simp⟩
  | cons a l ih =>
    intro acc pn hpn
    rw [List.foldl_cons] at hpn
    obtain ⟨hmem, hrest⟩ := ih (fun b hb => hl b (by simp [hb])) _ pn hpn
    rw [unmapArea_pins] at hmem
    obtain ⟨hmem2, hpred⟩ := Multiset.mem_filter.1 hmem
    refine ⟨hmem2, ?_⟩
    intro b hb
    rcases List.mem_cons.1 hb with hb | hb
    · rw [hb]
      have ha := hl a (by simp)
      have : a.iova_start + (a.iova_last - a.iova_start + 1) - 1 =
          a.iova_last := by omega
      rw [this] at hpred
      simpa using hpred
    · exact hrest b hb

end Unmap


/-- C4 (spec-modelled: the unmap walk iopt_unmap_iova_range is not among
the given sources; it is modelled from §4.2 steps 2-6, with
iommufd_access_notify_unmap translated from device.c and its blocking
callback contract modelled as the release of every intersecting pin before
it returns): in the teardown of each Area, every accessor-notification
event strictly precedes every hardware-domain unfill and the unpin; after
the notify step no accessor pin over the notified range remains; and after
unmap of a range returns, no hardware domain retains an entry over that
range and no accessor pin over any torn-down Area remains. -/
theorem c4_unmap_ordering (st : Unmap.St) (a : IoptArea) (start last : Nat)
    (hwf : ∀ e ∈ st.domEntries, e.2.1 ≤ e.2.2)
    (hwithin : ∀ e ∈ st.domEntries, ∃ b ∈ st.areas,
      b.iova_start ≤ e.2.1 ∧ e.2.2 ≤ b.iova_last)
    (hareas : ∀ b ∈ st.areas, b.iova_start ≤ b.iova_last) :
    (∀ i j (hi : i < (Unmap.unmapArea st a).2.length)
        (hj : j < (Unmap.unmapArea st a).2.length),
      Unmap.isNotify ((Unmap.unmapArea st a).2.get ⟨i, hi⟩) →
      Unmap.isTeardown ((Unmap.unmapArea st a).2.get ⟨j, hj⟩) → i < j) ∧
    (∀ iova len,
      ∀ pn ∈ (Unmap.iommufd_access_notify_unmap st iova len).1.pins,
        ¬(pn.start ≤ iova + len - 1 ∧ iova ≤ pn.last)) ∧
    (∀ e ∈ (Unmap.iopt_unmap_iova_range st start last).1.domEntries,
      ¬(e.2.1 ≤ last ∧ start ≤ e.2.2)) ∧
    (∀ pn ∈ (Unmap.iopt_unmap_iova_range st start last).1.pins,
      ∀ b ∈ st.areas, b.iova_start ≤ last → start ≤ b.iova_last →
        ¬(pn.start ≤ b.iova_last ∧ b.iova_start ≤ pn.last)) := by
  refine ⟨Unmap.unmapArea_notify_first st a,
    fun iova len => Unmap.notify_unmap_drains st iova len, ?_, ?_⟩
  · intro e he hint
    unfold Unmap.iopt_unmap_iova_range at he
    obtain ⟨hmem, hall⟩ := Unmap.unmap_fold_entries _ (st, []) e he
    obtain ⟨b0, hb0, hb1, hb2⟩ := hwithin e hmem
    have hwf0 := hwf e hmem
    have hb0f : b0 ∈ st.areas.filter
        (fun b => b.iova_start ≤ last ∧ start ≤ b.iova_last) := by
      rw [List.mem_filter]
      refine ⟨hb0, ?_⟩
      simp only [decide_eq_true_eq]
      omega
    have := hall b0 hb0f
    omega
  · intro pn hpn b hb hbl hbs
    unfold Unmap.iopt_unmap_iova_range at hpn
    obtain ⟨hmem, hall⟩ := Unmap.unmap_fold_pins _
      (fun x hx => hareas x (List.mem_of_mem_filter hx)) (st, []) pn hpn
    have hbf : b ∈ st.areas.filter
        (fun c => c.iova_start ≤ last ∧ start ≤ c.iova_last) := by
      rw [List.mem_filter]
      refine ⟨hb, ?_⟩
      simp only [decide_eq_true_eq]
      omega
    exact hall b hbf

/-- Witness for C4: in the concrete teardown trace of one area with one
registered access and one attached domain, position 1 is the notify event,
position 2 is the domain unfill, and the ordering theorem places the
former strictly before the latter. -/
theorem c4_unmap_ordering_witness :
    (1 : Nat) < 2 ∧
    Unmap.isNotify ((Unmap.unmapArea
      ⟨[⟨5⟩], {⟨5, 4096, 8191⟩}, [⟨1, 10, 4096, 8191, 0, 3, false⟩],
        {(9, 4096, 8191)}, [9]⟩ ⟨1, 10, 4096, 8191, 0, 3, false⟩).2.get
      ⟨1, by decide⟩) :=
  ⟨(c4_unmap_ordering
      ⟨[⟨5⟩], {⟨5, 4096, 8191⟩}, [⟨1, 10, 4096, 8191, 0, 3, false⟩],
        {(9, 4096, 8191)}, [9]⟩ ⟨1, 10, 4096, 8191, 0, 3, false⟩ 4096 8191
      (by decide) (by decide) (by decide)).1 1 2 (by decide) (by decide)
      (by decide) (by decide),
    by decide⟩

/-- C8: automatic domain selection skips non-automatic candidates,
candidates that cannot be locked and candidates whose attach reports the
incompatibility error (-EINVAL), using the first remaining candidate whose
attach succeeds; an attach error other than incompatibility propagates to
the caller without trying further candidates; and when every candidate is
skipped the result is that of allocating (and attaching) a fresh domain. -/
theorem c8_auto_domain_selection (attach : Nat → AutoDomain.AttachRes)
    (alloc : Except Err Nat) (cands : List AutoDomain.Cand) :
    (∀ pre c post, cands = pre ++ c :: post →
      (∀ p ∈ pre, AutoDomain.skipped attach p) →
      c.auto_domain = true → c.lockable = true →
      (attach c.id = .ok →
        AutoDomain.iommufd_device_auto_get_domain attach alloc cands =
          .ok c.id) ∧
      (∀ e, attach c.id = .err e →
        AutoDomain.iommufd_device_auto_get_domain attach alloc cands =
          .error e)) ∧
    ((∀ c ∈ cands, AutoDomain.skipped attach c) →
      AutoDomain.iommufd_device_auto_get_domain attach alloc cands =
        alloc) := by
  constructor
  · intro pre c post hsplit hpre hauto hlock
    rw [hsplit]
    exact AutoDomain.auto_first_live attach alloc pre c post hpre hauto hlock
  · exact AutoDomain.auto_all_skipped attach alloc cands

/-- Witness for C8: with an incompatible first candidate and a skipped
(non-automatic) second one, the third candidate's successful attach is
selected. -/
theorem c8_auto_domain_selection_witness :
    AutoDomain.iommufd_device_auto_get_domain
      (fun i => if i = 3 then .ok else .incompatible) (.ok 9)
      [⟨1, true, true⟩, ⟨2, false, true⟩, ⟨3, true, true⟩] = .ok 3 :=
  ((c8_auto_domain_selection (fun i => if i = 3 then .ok else .incompatible)
      (.ok 9) [⟨1, true, true⟩, ⟨2, false, true⟩, ⟨3, true, true⟩]).1
    [⟨1, true, true⟩, ⟨2, false, true⟩] ⟨3, true, true⟩ [] rfl (by decide)
    rfl rfl).1 (by decide)

/-- C10: iommufd_access_notify_unmap invokes the unmap callback of every
in-kernel access registered on the address space, passing every one the
full (iova, length) range: the emitted call list is exactly one notify
event per registered access, each carrying the full range, and it does not
depend on which pins the accesses hold — filtering to intersecting
accesses is left to the callback. -/
theorem c10_notify_all_accesses (st st2 : Unmap.St) (iova len : Nat)
    (hacc : st2.accesses = st.accesses) :
    (Unmap.iommufd_access_notify_unmap st iova len).2 =
      st.accesses.map (fun a => Unmap.Ev.notify a.id iova len) ∧
    (∀ a ∈ st.accesses, Unmap.Ev.notify a.id iova len ∈
      (Unmap.iommufd_access_notify_unmap st iova len).2) ∧
    (Unmap.iommufd_access_notify_unmap st2 iova len).2 =
      (Unmap.iommufd_access_notify_unmap st iova len).2 := by
  refine ⟨rfl, ?_, ?_⟩
  · intro a ha
    exact List.mem_map_of_mem _ ha
  · show st2.accesses.map _ = st.accesses.map _
    rw [hacc]

/-- Witness for C10: an access holding a pin far away from the range and
the same access with no pin at all receive the same notification list. -/
theorem c10_notify_all_accesses_witness :
    (Unmap.iommufd_access_notify_unmap ⟨[⟨5⟩], 0, [], 0, []⟩ 4096 4096).2 =
      (Unmap.iommufd_access_notify_unmap
        ⟨[⟨5⟩], {⟨5, 0, 99⟩}, [], 0, []⟩ 4096 4096).2 :=
  (c10_notify_all_accesses ⟨[⟨5⟩], {⟨5, 0, 99⟩}, [], 0, []⟩
    ⟨[⟨5⟩], 0, [], 0, []⟩ 4096 4096 rfl).2.2

end Iommufd
